import Mathlib

/-!
Verification development for the SSE steel-fabrication nesting engine.

The definitions below are a shallow embedding of the cutting-stock /
nesting subsystem:

* the mixed-length 1-D bin packing performed by the committed nest-run
  endpoint (`run_nest` in `routes_phase25.py`, lines 515-544), including
  oversized-piece warnings and stock selection;
* the material grouping of `run_nest` (lines 294-314) with its plate
  thickness key;
* the 2-D plate strip-packing step of `run_nest` (lines 366-413);
* the standalone linear nester of `nesting.py` (`nest_linear`) with its
  inventory seeding and purchase list;
* the persistence layer touched by the claims: nest-run commit,
  `delete_nest_run`, `unnest_parts` and `disposition_drop`, modelled as
  pure transitions on an explicit database state.

Python floats are modelled as rationals (exact arithmetic); the kerf and
length values appearing in the claims (multiples of 1/8 inch) are exact
in binary floating point, so no behaviour relevant to the claims is lost.
Display-string fields (`drop_length_display`, `length_display`) and the
`heat_number` column are not modelled: no claim refers to them.
-/

namespace SSES

/-! ### Generic list helpers mirroring Python idioms -/
/-- Python `enumerate` starting at `n`. -/
def pyEnumFrom {α : Type} : ℕ → List α → List (ℕ × α)
  | _, [] => []
  | n, a :: l => (n, a) :: pyEnumFrom (n + 1) l

/-- Python `enumerate`. -/
def pyEnum {α : Type} (l : List α) : List (ℕ × α) := pyEnumFrom 0 l

/-- Python `max` over a nonempty list (returns 0 on the empty list, which the
call sites never pass). -/
def maxList (l : List ℚ) : ℚ :=
  match l with
  | [] => 0
  | x :: xs => xs.foldl max x

/-- Stable insertion (descending by key) used to model Python's stable
`sorted(..., key=lambda x: -key(x))`: the new element goes after all
already-placed elements with a greater-or-equal key. -/
def insertByDesc {α : Type} (key : α → ℚ) (x : α) : List α → List α
  | [] => [x]
  | y :: ys => if key x ≤ key y then y :: insertByDesc key x ys else x :: y :: ys

/-- Stable sort, descending by key (Python `sorted(l, key=lambda v: -key v)`). -/
def sortByDesc {α : Type} (key : α → ℚ) (l : List α) : List α :=
  l.foldl (fun acc x => insertByDesc key x acc) []

/-- Stable insertion (ascending) for Python `sorted`. -/
def insertByAsc {α : Type} (key : α → ℚ) (x : α) : List α → List α
  | [] => [x]
  | y :: ys => if key y ≤ key x then y :: insertByAsc key x ys else x :: y :: ys

/-- Stable sort, ascending (Python `sorted(l)`). -/
def sortByAsc {α : Type} (key : α → ℚ) (l : List α) : List α :=
  l.foldl (fun acc x => insertByAsc key x acc) []

/-! ### Mixed-length 1-D bin packing of `run_nest`
(`src/routes_phase25.py`, lines 515-544).  A bin is a dict
`{"stock_length": ..., "remaining": ..., "cuts": [(orig_idx, length), ...]}`. -/
structure Bin where
  stock_length : ℚ
  remaining : ℚ
  cuts : List (ℕ × ℚ)
deriving DecidableEq

/-- The best-fit scan of `run_nest`: iterate over the open bins keeping the
index and resulting leftover of the tightest fit found so far
(`if b["remaining"] >= length + kerf: nr = ...; if nr < best_remaining: ...`).
`need` is `length + kerf`. -/
def findBestAux (need : ℚ) : List Bin → ℕ → Option (ℕ × ℚ) → Option (ℕ × ℚ)
  | [], _, best => best
  | b :: bs, i, best =>
    if need ≤ b.remaining then
      let nr := b.remaining - need
      match best with
      | none => findBestAux need bs (i + 1) (some (i, nr))
      | some (j, br) =>
        if nr < br then findBestAux need bs (i + 1) (some (i, nr))
        else findBestAux need bs (i + 1) (some (j, br))
    else findBestAux need bs (i + 1) best

/-- Stock selection for a new bin (`run_nest` lines 534-539):
`valid = [sl for sl in avail_inches if sl >= length + kerf]`;
smallest valid entry (the caller passes `avail` sorted ascending), falling
back to `max(avail_inches)` when nothing is long enough. -/
def pickStock (avail : List ℚ) (need : ℚ) : ℚ :=
  match avail.filter (fun sl => need ≤ sl) with
  | [] => maxList avail
  | sl :: _ => sl

/-- Place one piece `(orig_idx, length)`: best fit into an open bin, else open
a new bin (`run_nest` lines 519-544).  Note the new bin charges
`length + kerf` even for its first cut. -/
def placePiece (kerf : ℚ) (avail : List ℚ) (bins : List Bin) (p : ℕ × ℚ) : List Bin :=
  match findBestAux (p.2 + kerf) bins 0 none with
  | some (i, _) =>
    match bins.get? i with
    | some b =>
      bins.set i { b with remaining := b.remaining - p.2 - kerf, cuts := b.cuts ++ [p] }
    | none => bins
  | none =>
    let sl := pickStock avail (p.2 + kerf)
    bins ++ [{ stock_length := sl, remaining := sl - p.2 - kerf, cuts := [p] }]

/-- The mixed-length best-fit-decreasing packing of `run_nest`:
`indexed = sorted(enumerate(cut_lengths), key=lambda x: -x[1])` followed by
the placement loop. -/
def nestMult (kerf : ℚ) (avail : List ℚ) (cut_lengths : List ℚ) : List Bin :=
  (sortByDesc (fun p => p.2) (pyEnum cut_lengths)).foldl (placePiece kerf avail) []

/-- All cuts across a list of bins. -/
def cutsOf (bins : List Bin) : List (ℕ × ℚ) := bins.flatMap (fun b => b.cuts)

/-- Sum of the cut lengths on one bin. -/
def sumCuts (b : Bin) : ℚ := (b.cuts.map (fun c => c.2)).sum

/-- Oversized-piece warning scan of `run_nest` (lines 503-513): the indices of
`cut_lengths` entries strictly longer than the largest stock, in order. -/
def oversizedIdxFrom (maxStock : ℚ) : ℕ → List ℚ → List ℕ
  | _, [] => []
  | i, l :: ls =>
    if maxStock < l then i :: oversizedIdxFrom maxStock (i + 1) ls
    else oversizedIdxFrom maxStock (i + 1) ls

/-- Indices of the oversized warnings emitted for a group. -/
def oversizedWarnIdx (avail : List ℚ) (cut_lengths : List ℚ) : List ℕ :=
  oversizedIdxFrom (maxList avail) 0 cut_lengths

/-! ### Conservation: each placed piece consumes `length + kerf` -/
/-- The per-bin accounting of the committed nest run: cut lengths plus one
kerf per cut (including the first) plus the leftover equals the stock
length. -/
def binConserved (kerf : ℚ) (b : Bin) : Prop :=
  sumCuts b + kerf * b.cuts.length + b.remaining = b.stock_length

/-! ### Oversized pieces land on the largest stock length -/
/-- Invariant maintained by the packing loop: every open bin's remaining
capacity is at most the largest stock length, and any oversized cut sits on a
bin whose stock length is exactly the largest stock length. -/
def binsBounded (maxS : ℚ) (bins : List Bin) : Prop :=
  ∀ b ∈ bins, b.remaining ≤ maxS ∧ ∀ c ∈ b.cuts, maxS < c.2 → b.stock_length = maxS

/-! ### Material grouping of `run_nest` (`routes_phase25.py` lines 294-314) -/
/-- One row of the `parts_to_nest` list assembled by `run_nest`
(lines 277-289); `quantity` is already `part.quantity * assembly_quantity`. -/
structure PartRow where
  id : ℕ
  part_mark : String
  assembly_mark : String
  shape : String
  dimensions : String
  grade : String
  length_inches : ℚ
  width_inches : ℚ
  quantity : ℕ
deriving DecidableEq

/-- Python `str.upper()` (ASCII). -/
def pyUpper (s : String) : String := ⟨s.data.map Char.toUpper⟩

/-- Python `str.strip()`. -/
def pyStrip (s : String) : String :=
  ⟨((s.data.dropWhile Char.isWhitespace).reverse.dropWhile Char.isWhitespace).reverse⟩

/-- The quote-removal step of `_extract_plate_thickness_str`: drop every
double-quote (codepoint 34) and single-quote (codepoint 39) character. -/
def dropQuoteChars (s : String) : String :=
  ⟨s.data.filter (fun c => !(c == Char.ofNat 34) && !(c == Char.ofNat 39))⟩

/-- Model of `re.split(r'[xX]', s, maxsplit=1)[0]`: the part of the string
strictly before the first `x` or `X` (the whole string when there is none). -/
def beforeX (s : String) : String :=
  ⟨s.data.takeWhile (fun c => !(c == 'x') && !(c == 'X'))⟩

/-- `_extract_plate_thickness_str` (`routes_phase25.py` lines 690-696):
strip, remove quotes, split on `x`/`X`, keep the first part, strip again. -/
def thicknessStr (dims : String) : String :=
  pyStrip (beforeX (dropQuoteChars (pyStrip dims)))

/-- Plate shape test of `run_nest` line 296-299 (`PLATE_SHAPES`). -/
def isPlateShape (shape : String) : Bool :=
  pyUpper shape == "PL" || pyUpper shape == "PLATE"

/-- Grouping key of `run_nest` (lines 298-314): the string
`f"{shape}|{dims}|{grade}"` for linear shapes and
`f"{shape}|{thickness_str}|{grade}"` for plates. -/
def groupKeyOf (p : PartRow) : String :=
  if isPlateShape p.shape then
    p.shape ++ "|" ++ thicknessStr p.dimensions ++ "|" ++ p.grade
  else
    p.shape ++ "|" ++ p.dimensions ++ "|" ++ p.grade

/-- One entry of the insertion-ordered `groups` dict of `run_nest`. -/
structure Group where
  key : String
  shape : String
  dims : String
  grade : String
  is_plate : Bool
  items : List PartRow
deriving DecidableEq

/-- Insert one part into the group dictionary (`run_nest` lines 298-314). -/
def addPart (gs : List Group) (p : PartRow) : List Group :=
  let k := groupKeyOf p
  if gs.any (fun g => g.key == k) then
    gs.map (fun g => if g.key == k then { g with items := g.items ++ [p] } else g)
  else
    gs ++ [{ key := k, shape := p.shape,
             dims := if isPlateShape p.shape then thicknessStr p.dimensions else p.dimensions,
             grade := p.grade, is_plate := isPlateShape p.shape, items := [p] }]

/-- The full grouping pass over `parts_to_nest`. -/
def buildGroups (ps : List PartRow) : List Group := ps.foldl addPart []

/-- A group is coherent when each of its items has the group's key. -/
def groupOk (g : Group) : Prop := ∀ p ∈ g.items, groupKeyOf p = g.key

/-! ### Per-group mult nesting results -/
/-- One entry of `all_results` for a mult (1-D) group: the group header, the
quantity-expanded `part_refs` list, and the packed bins. -/
structure GroupResult where
  grp : Group
  part_refs : List PartRow
  bins : List Bin
deriving DecidableEq

/-- Quantity expansion of a group's items (`run_nest` lines 478-483): each
item contributes `quantity` copies, in order. -/
def expandGroup (g : Group) : List PartRow :=
  g.items.flatMap (fun p => List.replicate p.quantity p)

/-- The mult-nesting pass of `run_nest` over all groups, with a single stock
configuration (`avail` in inches, ascending, and `kerf`) and nest mode
`"mult"` so that every group takes the 1-D path; groups with no cut lengths
are skipped (`if not cut_lengths: continue`, line 485). -/
def multResults (kerf : ℚ) (avail : List ℚ) (ps : List PartRow) : List GroupResult :=
  (buildGroups ps).filterMap (fun g =>
    let refs := expandGroup g
    if refs.isEmpty then none
    else some ⟨g, refs, nestMult kerf avail (refs.map (fun p => p.length_inches))⟩)

/-! ### Plate strip packing of `run_nest` (`routes_phase25.py` lines 361-413)

A strip is `{"h": ..., "x_rem": ..., "cuts": [(orig_idx, ow, ol), ...]}`, a
sheet is `{"strips": [...], "y_used": ...}`. -/
structure PStrip where
  h : ℚ
  x_rem : ℚ
  cuts : List (ℕ × ℚ × ℚ)
deriving DecidableEq

structure PSheet where
  strips : List PStrip
  y_used : ℚ
deriving DecidableEq

/-- Which of the four placement mechanisms accepted a plate piece. -/
inductive PlaceKind
  | intoStrip
  | newStrip
  | newSheet
  | forcedOversized
deriving DecidableEq

/-- Try the existing strips of the current sheet, first fit
(lines 377-382): strip accepts when `x_rem ≥ ol + kerf` and `h ≥ ow`. -/
def tryStrips (kerf ow ol : ℚ) (idx : ℕ) : List PStrip → Option (List PStrip)
  | [] => none
  | s :: ss =>
    if ol + kerf ≤ s.x_rem ∧ ow ≤ s.h then
      some ({ s with x_rem := s.x_rem - (ol + kerf), cuts := s.cuts ++ [(idx, ow, ol)] } :: ss)
    else
      match tryStrips kerf ow ol idx ss with
      | some ss2 => some (s :: ss2)
      | none => none

/-- One orientation attempt on the current sheet (lines 370-394): skip if out
of the sheet bounds, else existing strips, else a new strip if the height
budget `y_used + ow + kerf ≤ sw` remains. -/
def tryOrient (sw sl kerf : ℚ) (cur : PSheet) (idx : ℕ) (ow ol : ℚ) :
    Option (PSheet × PlaceKind) :=
  if sw < ow ∨ sl < ol then none
  else
    match tryStrips kerf ow ol idx cur.strips with
    | some strips2 => some ({ cur with strips := strips2 }, PlaceKind.intoStrip)
    | none =>
      if cur.y_used + ow + kerf ≤ sw then
        some ({ strips := cur.strips ++ [⟨ow, sl - ol - kerf, [(idx, ow, ol)]⟩],
                y_used := cur.y_used + ow + kerf }, PlaceKind.newStrip)
      else none

/-- Place one plate piece `(orig_idx, pw, pl)` (lines 366-413): both
orientations against the current sheet, then both orientations on a fresh
sheet, then the forced oversized strip. -/
def placePlatePiece (sw sl kerf : ℚ) (state : List PSheet × PSheet) (pc : ℕ × ℚ × ℚ) :
    (List PSheet × PSheet) × PlaceKind :=
  let sheets := state.1
  let cur := state.2
  let idx := pc.1
  let pw := pc.2.1
  let pl := pc.2.2
  match tryOrient sw sl kerf cur idx pw pl with
  | some (cur2, k) => ((sheets, cur2), k)
  | none =>
    match tryOrient sw sl kerf cur idx pl pw with
    | some (cur2, k) => ((sheets, cur2), k)
    | none =>
      if pw ≤ sw ∧ pl ≤ sl then
        ((sheets ++ [cur], ⟨[⟨pw, sl - pl - kerf, [(idx, pw, pl)]⟩], pw + kerf⟩),
          PlaceKind.newSheet)
      else if pl ≤ sw ∧ pw ≤ sl then
        ((sheets ++ [cur], ⟨[⟨pl, sl - pw - kerf, [(idx, pl, pw)]⟩], pl + kerf⟩),
          PlaceKind.newSheet)
      else
        ((sheets ++ [cur], ⟨[⟨pw, 0, [(idx, pw, pl)]⟩], pw⟩), PlaceKind.forcedOversized)

/-- Sort plate pieces by area descending (line 362). -/
def sortPlatePieces (pieces : List (ℕ × ℚ × ℚ)) : List (ℕ × ℚ × ℚ) :=
  sortByDesc (fun pc => pc.2.1 * pc.2.2) pieces

/-- Pack a list of (already sorted) plate pieces onto sheets of inner size
`sw × sl` (lines 363-417), including the final flush of the current sheet
and the empty-sheet filter. -/
def packPlates (sw sl kerf : ℚ) (pieces : List (ℕ × ℚ × ℚ)) : List PSheet :=
  let st := pieces.foldl (fun acc pc => (placePlatePiece sw sl kerf acc pc).1) ([], ⟨[], 0⟩)
  (st.1 ++ [st.2]).filter (fun s => !s.strips.isEmpty && s.strips.any (fun t => !t.cuts.isEmpty))

/-! ### The standalone linear nester of `nesting.py` (`nest_linear`) -/
/-- One inventory dict passed to `nest_linear` (shape/dimensions/grade,
quantity, actual length in inches). -/
structure InvItem where
  shape : String
  dimensions : String
  grade : String
  quantity : ℕ
  length_inches : ℚ
deriving DecidableEq

/-- A `StockBar` of `nesting.py` (cut identities reduced to their lengths;
`remaining` starts at `stock_length` per `__post_init__`). -/
structure LBar where
  stock_length : ℚ
  remaining : ℚ
  cuts : List ℚ
  shape : String
  dimensions : String
  grade : String
  from_inventory : Bool
deriving DecidableEq

/-- The inventory match of `nest_linear` (lines 202-206): case-insensitive
comparison of shape, dimensions and grade, and positive quantity. -/
def invMatches (shape dims grade : String) (it : InvItem) : Bool :=
  pyUpper it.shape == pyUpper shape && pyUpper it.dimensions == pyUpper dims &&
    pyUpper it.grade == pyUpper grade && it.quantity != 0

/-- Inventory seeding of `nest_linear` (lines 200-216): one bar per unit of
each matching inventory item, sized to the item's actual length, carrying the
group's shape/dimensions/grade and flagged `from_inventory`. -/
def seedInvBars (shape dims grade : String) (inventory : List InvItem) : List LBar :=
  inventory.flatMap (fun it =>
    if invMatches shape dims grade it then
      List.replicate it.quantity
        { stock_length := it.length_inches, remaining := it.length_inches, cuts := [],
          shape := shape, dimensions := dims, grade := grade, from_inventory := true }
    else [])

/-- Best-fit scan of `nest_linear` (lines 224-233): the space needed on a bar
is `length + kerf` only when the bar already has cuts, and a bar qualifies
when the resulting leftover is ≥ 0. -/
def findBestLBar (kerf l : ℚ) : List LBar → ℕ → Option (ℕ × ℚ) → Option (ℕ × ℚ)
  | [], _, best => best
  | b :: bs, i, best =>
    let nr := b.remaining - (l + (if b.cuts.isEmpty then 0 else kerf))
    if 0 ≤ nr then
      match best with
      | none => findBestLBar kerf l bs (i + 1) (some (i, nr))
      | some (j, br) =>
        if nr < br then findBestLBar kerf l bs (i + 1) (some (i, nr))
        else findBestLBar kerf l bs (i + 1) (some (j, br))
    else findBestLBar kerf l bs (i + 1) best

/-- Place one piece in `nest_linear` (lines 221-258): best fit into an open
bar, else a new bar at the smallest stock length ≥ the piece length (no kerf
for a first cut), else the piece is unplaced. -/
def placeLinear (shape dims grade : String) (kerf : ℚ) (avail : List ℚ)
    (st : List LBar × List ℚ) (l : ℚ) : List LBar × List ℚ :=
  let bars := st.1
  let unplaced := st.2
  match findBestLBar kerf l bars 0 none with
  | some (i, _) =>
    match bars.get? i with
    | some b =>
      (bars.set i { b with
          remaining := b.remaining - (l + (if b.cuts.isEmpty then 0 else kerf)),
          cuts := b.cuts ++ [l] }, unplaced)
    | none => (bars, unplaced)
  | none =>
    match (sortByAsc id avail).find? (fun sl => decide (l ≤ sl)) with
    | some sl =>
      (bars ++ [{ stock_length := sl, remaining := sl - l, cuts := [l],
                  shape := shape, dimensions := dims, grade := grade,
                  from_inventory := false }], unplaced)
    | none => (bars, unplaced ++ [l])

/-- One material group of `nest_linear` (lines 181-260): pieces sorted
longest first; when no stock length is available the whole group is unplaced
(before any inventory seeding); otherwise the bar list is seeded from
inventory and the pieces are packed. -/
def nestLinearGroup (shape dims grade : String) (kerf : ℚ) (avail : List ℚ)
    (inventory : List InvItem) (lengths : List ℚ) : List LBar × List ℚ :=
  if avail.isEmpty then ([], sortByDesc id lengths)
  else
    (sortByDesc id lengths).foldl (placeLinear shape dims grade kerf avail)
      (seedInvBars shape dims grade inventory, [])

/-- One line of the `nest_linear` purchase list (lines 269-282). -/
structure PurchaseEntry where
  shape : String
  dimensions : String
  grade : String
  stock_length_ft : ℚ
  quantity : ℕ
deriving DecidableEq

/-- Fold one bar into the purchase list (lines 270-282): inventory bars are
skipped; others are grouped by shape, dimensions, grade and stock length. -/
def addPurchase (acc : List PurchaseEntry) (b : LBar) : List PurchaseEntry :=
  if b.from_inventory then acc
  else if acc.any (fun e => e.shape == b.shape && e.dimensions == b.dimensions &&
          e.grade == b.grade && e.stock_length_ft == b.stock_length / 12) then
    acc.map (fun e =>
      if e.shape == b.shape && e.dimensions == b.dimensions && e.grade == b.grade &&
          e.stock_length_ft == b.stock_length / 12 then
        { e with quantity := e.quantity + 1 }
      else e)
  else
    acc ++ [{ shape := b.shape, dimensions := b.dimensions, grade := b.grade,
              stock_length_ft := b.stock_length / 12, quantity := 1 }]

/-- The purchase list over all bars. -/
def purchaseList (bars : List LBar) : List PurchaseEntry := bars.foldl addPurchase []

/-- Total quantity across purchase list entries. -/
def purchaseQtyTotal (entries : List PurchaseEntry) : ℕ :=
  (entries.map (fun e => e.quantity)).sum

/-- Verbatim (case-sensitive) inventory match.  Modelled from the spec's
words "inventory matching this exact material (shape+dimension+grade)", for
comparison with the code's case-insensitive `invMatches`. -/
def invMatchesExact (shape dims grade : String) (it : InvItem) : Bool :=
  it.shape == shape && it.dimensions == dims && it.grade == grade && it.quantity != 0

/-! ### Persistence layer (`routes_phase25.py`): nest-run commit, deletion,
unnesting and drop disposition, modelled as pure transitions on an explicit
database state.  Display strings, timestamps (beyond a set flag), heat
numbers and RFQ cross-references are not modelled; run and drop primary keys
are modelled with explicit counters. -/
structure NRItem where
  run_id : ℕ
  part_id : ℕ
  stock_index : ℕ
  cut_position : ℕ
  cut_length : ℚ
  shape : String
  dimensions : String
  grade : String
  part_mark : String
deriving DecidableEq

/-- A `NestRunDrop` row; `disposition = ""` models NULL (Python truthiness
`if drop.disposition:` treats both alike). -/
structure NRDrop where
  id : ℕ
  run_id : ℕ
  stock_index : ℕ
  shape : String
  dimensions : String
  grade : String
  stock_length : ℚ
  drop_length : ℚ
  disposition : String
  disposition_by : String
  disposition_date_set : Bool
  inventory_location : String
deriving DecidableEq

/-- A `MaterialInventory` row (fields used by the claims). -/
structure InvRow where
  source_type : String
  shape : String
  dimensions : String
  grade : String
  length_inches : ℚ
  location : String
  status : String
  added_by : String
deriving DecidableEq

structure DBState where
  next_run_id : ℕ
  next_drop_id : ℕ
  runs : List ℕ
  items : List NRItem
  drops : List NRDrop
  inv : List InvRow
deriving DecidableEq

inductive NestErr
  | partLocked
  | noValidParts
deriving DecidableEq

def lookupPart (pt : List PartRow) (pid : ℕ) : Option PartRow :=
  pt.find? (fun p => p.id == pid)

/-- A part is locked exactly while some `NestRunItem` references it. -/
def partLockedIn (db : DBState) (pid : ℕ) : Bool :=
  db.items.any (fun it => it.part_id == pid)

/-- The validation loop of `run_nest` (lines 267-289): missing part ids are
skipped, an already nested part aborts the whole request with the
part-locked error. -/
def collectParts (pt : List PartRow) (db : DBState) : List ℕ → Except NestErr (List PartRow)
  | [] => Except.ok []
  | pid :: rest =>
    match lookupPart pt pid with
    | none => collectParts pt db rest
    | some p =>
      if partLockedIn db pid then Except.error NestErr.partLocked
      else
        match collectParts pt db rest with
        | Except.ok l => Except.ok (p :: l)
        | Except.error e => Except.error e

/-- `NestRunItem` rows for one bin (`run_nest` lines 599-624); the part
lookup `part_refs[orig_idx]` never misses because every cut index comes from
the group's own piece list. -/
def binItems (rid : ℕ) (refs : List PartRow) (binIdx : ℕ) (b : Bin) : List NRItem :=
  (pyEnum b.cuts).map (fun ci =>
    let p := (refs.get? ci.2.1).getD
      { id := 0, part_mark := "", assembly_mark := "", shape := "", dimensions := "",
        grade := "", length_inches := 0, width_inches := 0, quantity := 0 }
    { run_id := rid, part_id := p.id, stock_index := binIdx, cut_position := ci.1,
      cut_length := ci.2.2, shape := p.shape, dimensions := p.dimensions,
      grade := p.grade, part_mark := p.part_mark })

def resultItems (rid : ℕ) (r : GroupResult) : List NRItem :=
  (pyEnum r.bins).flatMap (fun bi => binItems rid r.part_refs bi.1 bi.2)

/-- Drops recorded for one group result (`run_nest` lines 626-650): one per
bin whose remaining exceeds 6 inches, as (stock_index, stock_length,
drop_length). -/
def resultDropSpecs (r : GroupResult) : List (ℕ × ℚ × ℚ) :=
  (pyEnum r.bins).filterMap (fun bi =>
    if (6 : ℚ) < bi.2.remaining then some (bi.1, bi.2.stock_length, bi.2.remaining) else none)

def runDropsOf (rid startId : ℕ) (rs : List GroupResult) : List NRDrop :=
  (pyEnum (rs.flatMap (fun r => (resultDropSpecs r).map (fun t => (r.grp, t))))).map
    (fun e =>
      { id := startId + e.1, run_id := rid, stock_index := e.2.2.1,
        shape := e.2.1.shape, dimensions := e.2.1.dims, grade := e.2.1.grade,
        stock_length := e.2.2.2.1, drop_length := e.2.2.2.2,
        disposition := "", disposition_by := "", disposition_date_set := false,
        inventory_location := "" })

/-- The committed nest-run endpoint `run_nest` (single stock configuration,
nest mode `"mult"`): validate the selection, pack, and atomically persist the
run header, items and drops; on any error nothing is persisted. -/
def runNestModel (pt : List PartRow) (avail : List ℚ) (kerf : ℚ) (db : DBState)
    (part_ids : List ℕ) : Except NestErr (DBState × ℕ) :=
  match collectParts pt db part_ids with
  | Except.error e => Except.error e
  | Except.ok parts =>
    if parts.isEmpty then Except.error NestErr.noValidParts
    else
      let rid := db.next_run_id
      let rs := multResults kerf avail parts
      let newItems := rs.flatMap (resultItems rid)
      let newDrops := runDropsOf rid db.next_drop_id rs
      Except.ok ({ db with
        next_run_id := rid + 1,
        next_drop_id := db.next_drop_id + newDrops.length,
        runs := db.runs ++ [rid],
        items := db.items ++ newItems,
        drops := db.drops ++ newDrops }, rid)

/-- The attribute filter of `delete_nest_run` (lines 834-840): an inventory
row is deleted when its source type is "drop" and its shape, dimensions and
length match the drop — provenance (which run created it) is not recorded. -/
def invMatchesDrop (d : NRDrop) (r : InvRow) : Bool :=
  r.source_type == "drop" && r.shape == d.shape && r.dimensions == d.dimensions &&
    r.length_inches == d.drop_length

/-- `delete_nest_run` (lines 817-863): for each drop of the run dispositioned
to inventory, delete all attribute-matching drop-sourced inventory rows; then
delete the run's drops, items and the run itself. -/
def deleteNestRun (db : DBState) (rid : ℕ) : Option DBState :=
  if db.runs.contains rid then
    let dlist := db.drops.filter (fun d => d.run_id == rid)
    let inv2 := dlist.foldl (fun acc d =>
      if d.disposition == "inventory" then acc.filter (fun r => !(invMatchesDrop d r))
      else acc) db.inv
    some { db with
      runs := db.runs.filter (fun r => !(r == rid)),
      items := db.items.filter (fun it => !(it.run_id == rid)),
      drops := db.drops.filter (fun d => !(d.run_id == rid)),
      inv := inv2 }
  else none

/-- `unnest_parts` (lines 870-905): delete exactly the selected parts' item
rows; every affected run whose item count reaches zero is deleted together
with its drops. -/
def unnestParts (db : DBState) (pids : List ℕ) : DBState :=
  let removed := db.items.filter (fun it => pids.contains it.part_id)
  let items2 := db.items.filter (fun it => !(pids.contains it.part_id))
  let affected := removed.map (fun it => it.run_id)
  let dead := affected.filter (fun r => items2.countP (fun it => it.run_id == r) == 0)
  { db with
    items := items2,
    runs := db.runs.filter (fun r => !(dead.contains r)),
    drops := db.drops.filter (fun d => !(dead.contains d.run_id)) }

inductive DispErr
  | notFound
  | alreadyDispositioned
deriving DecidableEq

/-- The inventory row created by `disposition_drop` on action "inventory"
(lines 933-947). -/
def dropInvRow (d : NRDrop) (location operator : String) : InvRow :=
  { source_type := "drop", shape := d.shape, dimensions := d.dimensions, grade := d.grade,
    length_inches := d.drop_length, location := location, status := "available",
    added_by := operator }

/-- `disposition_drop` (lines 912-952): 404 when the drop is missing;
rejected when the drop's disposition is truthy (non-empty); otherwise the
action string, timestamp and operator are recorded, and only the literal
action "inventory" additionally creates an inventory row. -/
def dispositionDrop (db : DBState) (did : ℕ) (action location operator : String) :
    Except DispErr DBState :=
  match db.drops.find? (fun d => d.id == did) with
  | none => Except.error DispErr.notFound
  | some d =>
    if d.disposition == "" then
      let d2 := { d with
        disposition := action, disposition_date_set := true, disposition_by := operator,
        inventory_location := if action == "inventory" then location else d.inventory_location }
      let drops2 := db.drops.map (fun x => if x.id == did then d2 else x)
      if action == "inventory" then
        Except.ok { db with drops := drops2, inv := db.inv ++ [dropInvRow d location operator] }
      else
        Except.ok { db with drops := drops2 }
    else Except.error DispErr.alreadyDispositioned

/-- The oversized warnings of one group, with the referenced part mark
(`run_nest` lines 503-513: `part_refs[ci].get("part_mark", "")`). -/
def oversizedWarns (avail : List ℚ) (refs : List PartRow) (ls : List ℚ) :
    List (ℕ × String) :=
  (oversizedWarnIdx avail ls).map
    (fun i => (i, ((refs.get? i).map (fun p => p.part_mark)).getD ""))

/-! ## Lemmas and claim theorems -/

theorem mem_pyEnumFrom_snd {α : Type} {p : ℕ × α} :
    ∀ {n : ℕ} {l : List α}, p ∈ pyEnumFrom n l → p.2 ∈ l := by
  intro n l
  induction l generalizing n with
  | nil => intro h; cases h
  | cons a t ih =>
    intro h
    cases h with
    | head => exact List.mem_cons_self _ _
    | tail _ h => exact List.mem_cons_of_mem _ (ih h)

theorem pyEnumFrom_mem_of_get? {α : Type} {l : List α} {k : ℕ} {v : α}
    (h : l.get? k = some v) : ∀ n : ℕ, (n + k, v) ∈ pyEnumFrom n l := by
  induction l generalizing k with
  | nil => simp [List.get?] at h
  | cons a t ih =>
    intro n
    cases k with
    | zero =>
      have hv : a = v := by simpa [List.get?] using h
      subst hv
      simp [pyEnumFrom]
    | succ k =>
      simp only [List.get?] at h
      have := ih h (n + 1)
      have harith : n + 1 + k = n + (k + 1) := by omega
      rw [harith] at this
      exact List.mem_cons_of_mem _ this

theorem mem_insertByDesc {α : Type} (key : α → ℚ) (x : α) :
    ∀ (l : List α) (y : α), y ∈ insertByDesc key x l ↔ y = x ∨ y ∈ l := by
  intro l
  induction l with
  | nil => intro y; simp [insertByDesc]
  | cons a t ih =>
    intro y
    by_cases h : key x ≤ key a
    · simp only [insertByDesc, if_pos h, List.mem_cons, ih]
      tauto
    · simp [insertByDesc, if_neg h, List.mem_cons]

theorem mem_sortByDesc_aux {α : Type} (key : α → ℚ) :
    ∀ (l acc : List α) (y : α),
      y ∈ l.foldl (fun acc x => insertByDesc key x acc) acc ↔ y ∈ acc ∨ y ∈ l := by
  intro l
  induction l with
  | nil => intro acc y; simp
  | cons a t ih =>
    intro acc y
    simp only [List.foldl_cons, ih, mem_insertByDesc, List.mem_cons]
    tauto

theorem mem_sortByDesc {α : Type} (key : α → ℚ) (l : List α) (y : α) :
    y ∈ sortByDesc key l ↔ y ∈ l := by
  simp [sortByDesc, mem_sortByDesc_aux]

/-! ### Basic lemmas about `maxList`, `pickStock`, `findBestAux` -/
theorem foldl_max_le (xs : List ℚ) : ∀ a : ℚ, a ≤ xs.foldl max a := by
  induction xs with
  | nil => intro a; exact le_refl a
  | cons x t ih =>
    intro a
    exact le_trans (le_max_left a x) (ih (max a x))

theorem le_foldl_max {x : ℚ} {xs : List ℚ} (hx : x ∈ xs) :
    ∀ a : ℚ, x ≤ xs.foldl max a := by
  induction xs with
  | nil => cases hx
  | cons y t ih =>
    intro a
    cases hx with
    | head => exact le_trans (le_max_right a x) (foldl_max_le t _)
    | tail _ h => exact ih h (max a y)

theorem foldl_max_mem (xs : List ℚ) : ∀ a : ℚ, xs.foldl max a = a ∨ xs.foldl max a ∈ xs := by
  induction xs with
  | nil => intro a; exact Or.inl rfl
  | cons x t ih =>
    intro a
    rcases ih (max a x) with h | h
    · rcases max_choice a x with hm | hm
      · exact Or.inl (by rw [List.foldl_cons, h, hm])
      · exact Or.inr (by rw [List.foldl_cons, h, hm]; exact List.mem_cons_self _ _)
    · exact Or.inr (List.mem_cons_of_mem _ h)

theorem le_maxList {x : ℚ} {l : List ℚ} (hx : x ∈ l) : x ≤ maxList l := by
  cases l with
  | nil => cases hx
  | cons a t =>
    rcases List.mem_cons.mp hx with rfl | h
    · exact foldl_max_le t x
    · exact le_foldl_max h a

theorem maxList_mem {l : List ℚ} (h : l ≠ []) : maxList l ∈ l := by
  cases l with
  | nil => exact absurd rfl h
  | cons a t =>
    show t.foldl max a ∈ a :: t
    rcases foldl_max_mem t a with h1 | h1
    · rw [h1]; exact List.mem_cons_self _ _
    · exact List.mem_cons_of_mem _ h1

theorem pickStock_of_none {avail : List ℚ} {need : ℚ}
    (h : ∀ a ∈ avail, a < need) : pickStock avail need = maxList avail := by
  have hf : avail.filter (fun sl => need ≤ sl) = [] := by
    apply List.filter_eq_nil_iff.mpr
    intro a ha
    simp only [decide_eq_true_eq]
    exact not_le_of_lt (h a ha)
  unfold pickStock
  rw [hf]

theorem pickStock_mem {avail : List ℚ} (h : avail ≠ []) (need : ℚ) :
    pickStock avail need ∈ avail := by
  unfold pickStock
  rcases hf : avail.filter (fun sl => need ≤ sl) with _ | ⟨sl, rest⟩
  · exact maxList_mem h
  · have : sl ∈ avail.filter (fun sl => need ≤ sl) := by rw [hf]; exact List.mem_cons_self _ _
    exact List.mem_of_mem_filter this

theorem pickStock_spec {avail : List ℚ} {need : ℚ}
    (hs : avail.Pairwise (· ≤ ·)) (hex : ∃ a ∈ avail, need ≤ a) :
    pickStock avail need ∈ avail ∧ need ≤ pickStock avail need ∧
      ∀ a ∈ avail, need ≤ a → pickStock avail need ≤ a := by
  unfold pickStock
  rcases hf : avail.filter (fun sl => need ≤ sl) with _ | ⟨sl, rest⟩
  · exfalso
    obtain ⟨a, ha, hna⟩ := hex
    have : a ∈ avail.filter (fun sl => need ≤ sl) :=
      List.mem_filter.mpr ⟨ha, by simpa using hna⟩
    rw [hf] at this
    cases this
  · have hmem : sl ∈ avail.filter (fun sl => need ≤ sl) := by
      rw [hf]; exact List.mem_cons_self _ _
    have hsl : sl ∈ avail := List.mem_of_mem_filter hmem
    have hns : need ≤ sl := by
      have := List.of_mem_filter hmem
      simpa using this
    refine ⟨hsl, hns, ?_⟩
    intro a ha hna
    have hafil : a ∈ avail.filter (fun sl => need ≤ sl) :=
      List.mem_filter.mpr ⟨ha, by simpa using hna⟩
    rw [hf] at hafil
    rcases List.mem_cons.mp hafil with h | h
    · exact le_of_eq h.symm
    · have hpair : (avail.filter (fun sl => need ≤ sl)).Pairwise (· ≤ ·) :=
        List.Pairwise.sublist (List.filter_sublist avail) hs
      rw [hf] at hpair
      exact (List.pairwise_cons.mp hpair).1 a h

theorem findBestAux_eq_none {need : ℚ} :
    ∀ {bs : List Bin} {i : ℕ}, (∀ b ∈ bs, b.remaining < need) →
      findBestAux need bs i none = none := by
  intro bs
  induction bs with
  | nil => intro i _; rfl
  | cons b t ih =>
    intro i h
    have hb : b.remaining < need := h b (List.mem_cons_self _ _)
    rw [findBestAux, if_neg (not_le_of_lt hb)]
    exact ih (fun x hx => h x (List.mem_cons_of_mem _ hx))

theorem findBestAux_none_sound {need : ℚ} :
    ∀ {bs : List Bin} {i : ℕ} {best : Option (ℕ × ℚ)},
      findBestAux need bs i best = none → best = none ∧ ∀ b ∈ bs, b.remaining < need := by
  intro bs
  induction bs with
  | nil =>
    intro i best h
    exact ⟨h, by intro b hb; cases hb⟩
  | cons b t ih =>
    intro i best h
    by_cases hb : need ≤ b.remaining
    · exfalso
      rw [findBestAux, if_pos hb] at h
      cases best with
      | none =>
        obtain ⟨hc, _⟩ := ih h
        cases hc
      | some jb =>
        cases jb with
        | mk j br =>
          simp only at h
          split at h
          · obtain ⟨hc, _⟩ := ih h
            cases hc
          · obtain ⟨hc, _⟩ := ih h
            cases hc
    · rw [findBestAux, if_neg hb] at h
      obtain ⟨h1, h2⟩ := ih h
      refine ⟨h1, ?_⟩
      intro x hx
      rcases List.mem_cons.mp hx with rfl | hxt
      · exact lt_of_not_le hb
      · exact h2 x hxt

/-- Full characterization of the best-fit scan: the returned candidate is one
of the scanned fitting bins (or the incoming best), its leftover is minimal
among all fitting bins scanned, and it improves on the incoming best. -/
theorem findBestAux_some_spec {need : ℚ} :
    ∀ {bs : List Bin} {i : ℕ} {best : Option (ℕ × ℚ)} {j : ℕ} {br : ℚ},
      findBestAux need bs i best = some (j, br) →
      (best = some (j, br) ∨
        ∃ k, ∃ hk : k < bs.length, j = i + k ∧ need ≤ (bs.get ⟨k, hk⟩).remaining ∧
          br = (bs.get ⟨k, hk⟩).remaining - need) ∧
      (∀ b ∈ bs, need ≤ b.remaining → br ≤ b.remaining - need) ∧
      (∀ j0 br0, best = some (j0, br0) → br ≤ br0) := by
  intro bs
  induction bs with
  | nil =>
    intro i best j br h
    refine ⟨Or.inl h, ?_, ?_⟩
    · intro b hb; cases hb
    · intro j0 br0 h0; rw [h0] at h; cases h; exact le_refl _
  | cons b t ih =>
    intro i best j br h
    by_cases hb : need ≤ b.remaining
    · rw [findBestAux, if_pos hb] at h
      cases best with
      | none =>
        simp only at h
        obtain ⟨hloc, hmin, himp⟩ := ih h
        have hbr_le_nr : br ≤ b.remaining - need := himp i (b.remaining - need) rfl
        constructor
        · rcases hloc with hl | hl
          · simp only [Option.some_inj, Prod.mk.injEq] at hl
            obtain ⟨hj, hbr⟩ := hl
            refine Or.inr ⟨0, by simp, by omega, ?_, ?_⟩
            · simpa using hb
            · simpa using hbr.symm
          · obtain ⟨k, hk, hj, hfit, hbr⟩ := hl
            refine Or.inr ⟨k + 1, by simpa using Nat.succ_lt_succ hk, by omega, ?_, ?_⟩
            · simpa using hfit
            · simpa using hbr
        · refine ⟨?_, ?_⟩
          · intro x hx hfx
            rcases List.mem_cons.mp hx with rfl | hxt
            · exact hbr_le_nr
            · exact hmin x hxt hfx
          · intro j0 br0 h0; cases h0
      | some jb =>
        cases jb with
        | mk j1 br1 =>
          simp only at h
          split at h
          next hlt =>
            obtain ⟨hloc, hmin, himp⟩ := ih h
            have hbr_le_nr : br ≤ b.remaining - need := himp i (b.remaining - need) rfl
            constructor
            · rcases hloc with hl | hl
              · simp only [Option.some_inj, Prod.mk.injEq] at hl
                obtain ⟨hj, hbr⟩ := hl
                refine Or.inr ⟨0, by simp, by omega, ?_, ?_⟩
                · simpa using hb
                · simpa using hbr.symm
              · obtain ⟨k, hk, hj, hfit, hbr⟩ := hl
                refine Or.inr ⟨k + 1, by simpa using Nat.succ_lt_succ hk, by omega,
                  by simpa using hfit, by simpa using hbr⟩
            · refine ⟨?_, ?_⟩
              · intro x hx hfx
                rcases List.mem_cons.mp hx with rfl | hxt
                · exact hbr_le_nr
                · exact hmin x hxt hfx
              · intro j0 br0 h0
                simp only [Option.some_inj, Prod.mk.injEq] at h0
                rw [← h0.2]
                calc br ≤ b.remaining - need := hbr_le_nr
                  _ ≤ br1 := le_of_lt hlt
          next hge =>
            obtain ⟨hloc, hmin, himp⟩ := ih h
            have hbr_le : br ≤ br1 := himp j1 br1 rfl
            constructor
            · rcases hloc with hl | hl
              · exact Or.inl hl
              · obtain ⟨k, hk, hj, hfit, hbr⟩ := hl
                refine Or.inr ⟨k + 1, by simpa using Nat.succ_lt_succ hk, by omega,
                  by simpa using hfit, by simpa using hbr⟩
            · refine ⟨?_, ?_⟩
              · intro x hx hfx
                rcases List.mem_cons.mp hx with rfl | hxt
                · calc br ≤ br1 := hbr_le
                    _ ≤ x.remaining - need := le_of_not_lt hge
                · exact hmin x hxt hfx
              · intro j0 br0 h0
                simp only [Option.some_inj, Prod.mk.injEq] at h0
                rw [← h0.2]
                exact hbr_le
    · rw [findBestAux, if_neg hb] at h
      obtain ⟨hloc, hmin, himp⟩ := ih h
      constructor
      · rcases hloc with hl | hl
        · exact Or.inl hl
        · obtain ⟨k, hk, hj, hfit, hbr⟩ := hl
          refine Or.inr ⟨k + 1, by simpa using Nat.succ_lt_succ hk, by omega,
            by simpa using hfit, by simpa using hbr⟩
      · refine ⟨?_, ?_⟩
        · intro x hx hfx
          rcases List.mem_cons.mp hx with rfl | hxt
          · exact absurd hfx hb
          · exact hmin x hxt hfx
        · exact himp

/-! ### Helper lemmas about `List.set` membership -/
theorem mem_set_self {α : Type} :
    ∀ (l : List α) (i : ℕ) (a : α), i < l.length → a ∈ l.set i a := by
  intro l
  induction l with
  | nil => intro i a h; simp at h
  | cons x t ih =>
    intro i a h
    cases i with
    | zero => simp [List.set]
    | succ i =>
      simp only [List.set]
      exact List.mem_cons_of_mem _ (ih i a (by simpa using h))

theorem mem_set_of_mem {α : Type} :
    ∀ (l : List α) (i : ℕ) (b x : α), x ∈ l →
      x ∈ l.set i b ∨ ∃ h : i < l.length, x = l.get ⟨i, h⟩ := by
  intro l
  induction l with
  | nil => intro i b x hx; cases hx
  | cons y t ih =>
    intro i b x hx
    cases i with
    | zero =>
      rcases List.mem_cons.mp hx with rfl | hxt
      · exact Or.inr ⟨by simp, rfl⟩
      · exact Or.inl (by simpa [List.set] using List.mem_cons_of_mem b hxt)
    | succ i =>
      rcases List.mem_cons.mp hx with rfl | hxt
      · exact Or.inl (by simp [List.set])
      · rcases ih i b x hxt with h | ⟨h, heq⟩
        · exact Or.inl (by simpa [List.set] using List.mem_cons_of_mem y h)
        · exact Or.inr ⟨by simpa using Nat.succ_lt_succ h, by simpa using heq⟩

theorem mem_or_eq_of_mem_set' {α : Type} :
    ∀ {l : List α} {i : ℕ} {b x : α}, x ∈ l.set i b → x ∈ l ∨ x = b := by
  intro l
  induction l with
  | nil => intro i b x hx; simp [List.set] at hx
  | cons y t ih =>
    intro i b x hx
    cases i with
    | zero =>
      rcases List.mem_cons.mp hx with rfl | hxt
      · exact Or.inr rfl
      · exact Or.inl (List.mem_cons_of_mem _ hxt)
    | succ i =>
      rcases List.mem_cons.mp hx with rfl | hxt
      · exact Or.inl (List.mem_cons_self _ _)
      · rcases ih hxt with h | h
        · exact Or.inl (List.mem_cons_of_mem _ h)
        · exact Or.inr h

theorem binConserved_placePiece {kerf : ℚ} {avail : List ℚ} {bins : List Bin}
    (h : ∀ b ∈ bins, binConserved kerf b) (p : ℕ × ℚ) :
    ∀ b ∈ placePiece kerf avail bins p, binConserved kerf b := by
  intro b hb
  unfold placePiece at hb
  rcases hfb : findBestAux (p.2 + kerf) bins 0 none with _ | ⟨i, nr⟩
  · rw [hfb] at hb
    simp only at hb
    rcases List.mem_append.mp hb with h1 | h1
    · exact h b h1
    · have hbnew := List.mem_singleton.mp h1
      subst hbnew
      unfold binConserved sumCuts
      simp only [List.map_cons, List.map_nil, List.sum_cons, List.sum_nil, List.length_cons,
        List.length_nil]
      push_cast
      ring
  · rw [hfb] at hb
    simp only at hb
    rcases hg : bins.get? i with _ | b0
    · rw [hg] at hb
      exact h b hb
    · rw [hg] at hb
      have hb0 : b0 ∈ bins := List.get?_mem hg
      rcases mem_or_eq_of_mem_set' hb with hold | hnew
      · exact h b hold
      · subst hnew
        have h0 := h b0 hb0
        unfold binConserved sumCuts at h0 ⊢
        simp only [List.map_append, List.sum_append, List.length_append,
          List.map_cons, List.map_nil, List.sum_cons, List.sum_nil, List.length_cons,
          List.length_nil]
        push_cast
        linarith

theorem foldl_preserve {α β : Type} (f : List α → β → List α) (P : α → Prop)
    (hf : ∀ (l : List α) (x : β), (∀ a ∈ l, P a) → ∀ a ∈ f l x, P a) :
    ∀ (xs : List β) (l : List α), (∀ a ∈ l, P a) → ∀ a ∈ xs.foldl f l, P a := by
  intro xs
  induction xs with
  | nil => intro l h a ha; exact h a ha
  | cons x t ih =>
    intro l h a ha
    exact ih (f l x) (hf l x h) a ha

theorem nestMult_conserved (kerf : ℚ) (avail : List ℚ) (ls : List ℚ) :
    ∀ b ∈ nestMult kerf avail ls, binConserved kerf b := by
  unfold nestMult
  exact foldl_preserve (placePiece kerf avail) (binConserved kerf)
    (fun l x h => binConserved_placePiece h x)
    (sortByDesc (fun p => p.2) (pyEnum ls)) [] (by intro a ha; cases ha)

/-! ### Every input piece is placed into some bin -/
theorem mem_cutsOf_iff {bins : List Bin} {c : ℕ × ℚ} :
    c ∈ cutsOf bins ↔ ∃ b ∈ bins, c ∈ b.cuts := by
  simp [cutsOf]

theorem cutsOf_placePiece_self (kerf : ℚ) (avail : List ℚ) (bins : List Bin) (p : ℕ × ℚ) :
    p ∈ cutsOf (placePiece kerf avail bins p) := by
  unfold placePiece
  rcases hfb : findBestAux (p.2 + kerf) bins 0 none with _ | ⟨i, nr⟩
  · simp only
    apply mem_cutsOf_iff.mpr
    refine ⟨_, List.mem_append.mpr (Or.inr (List.mem_singleton.mpr rfl)), ?_⟩
    simp
  · simp only
    obtain ⟨hloc, _, _⟩ := findBestAux_some_spec hfb
    rcases hloc with hl | hl
    · cases hl
    · obtain ⟨k, hk, hik, _, _⟩ := hl
      have hi : i < bins.length := by omega
      rcases hg : bins.get? i with _ | b0
      · rw [List.get?_eq_none] at hg
        omega
      · apply mem_cutsOf_iff.mpr
        refine ⟨_, mem_set_self _ i _ (by simpa using hi), ?_⟩
        simp

theorem cutsOf_placePiece_mono {kerf : ℚ} {avail : List ℚ} {bins : List Bin}
    {c : ℕ × ℚ} (hc : c ∈ cutsOf bins) (p : ℕ × ℚ) :
    c ∈ cutsOf (placePiece kerf avail bins p) := by
  unfold placePiece
  rcases hfb : findBestAux (p.2 + kerf) bins 0 none with _ | ⟨i, nr⟩
  · simp only
    obtain ⟨b, hb, hcb⟩ := mem_cutsOf_iff.mp hc
    exact mem_cutsOf_iff.mpr ⟨b, List.mem_append.mpr (Or.inl hb), hcb⟩
  · simp only
    rcases hg : bins.get? i with _ | b0
    · exact hc
    · obtain ⟨b, hb, hcb⟩ := mem_cutsOf_iff.mp hc
      rcases mem_set_of_mem bins i _ b hb with hsurv | ⟨hlen, heq⟩
      · exact mem_cutsOf_iff.mpr ⟨b, hsurv, hcb⟩
      · have hb0 : b = b0 := by
          have := List.get?_eq_get hlen
          rw [hg] at this
          rw [heq]
          exact Option.some_inj.mp this.symm
        subst hb0
        apply mem_cutsOf_iff.mpr
        refine ⟨_, mem_set_self _ i _ (by simpa using hlen), ?_⟩
        simp only [List.mem_append]
        exact Or.inl hcb

theorem cutsOf_foldl_mono {kerf : ℚ} {avail : List ℚ} {c : ℕ × ℚ} :
    ∀ (ps : List (ℕ × ℚ)) (bins : List Bin), c ∈ cutsOf bins →
      c ∈ cutsOf (ps.foldl (placePiece kerf avail) bins) := by
  intro ps
  induction ps with
  | nil => intro bins h; exact h
  | cons q t ih =>
    intro bins h
    exact ih _ (cutsOf_placePiece_mono h q)

theorem cutsOf_foldl_mem {kerf : ℚ} {avail : List ℚ} {p : ℕ × ℚ} :
    ∀ (ps : List (ℕ × ℚ)) (bins : List Bin), p ∈ ps →
      p ∈ cutsOf (ps.foldl (placePiece kerf avail) bins) := by
  intro ps
  induction ps with
  | nil => intro bins h; cases h
  | cons q t ih =>
    intro bins h
    rcases List.mem_cons.mp h with rfl | ht
    · exact cutsOf_foldl_mono t _ (cutsOf_placePiece_self kerf avail bins p)
    · exact ih _ ht

theorem nestMult_mem_cut {kerf : ℚ} {avail : List ℚ} {ls : List ℚ} {i : ℕ} {li : ℚ}
    (h : ls.get? i = some li) : (i, li) ∈ cutsOf (nestMult kerf avail ls) := by
  unfold nestMult
  apply cutsOf_foldl_mem
  apply (mem_sortByDesc _ _ _).mpr
  have := pyEnumFrom_mem_of_get? h 0
  simpa [pyEnum] using this

theorem placePiece_bounded {kerf : ℚ} {avail : List ℚ} {bins : List Bin} {p : ℕ × ℚ}
    (hk : 0 ≤ kerf) (hp : 0 ≤ p.2) (ha : avail ≠ [])
    (h : binsBounded (maxList avail) bins) :
    binsBounded (maxList avail) (placePiece kerf avail bins p) := by
  set maxS := maxList avail with hmax
  intro b hb
  unfold placePiece at hb
  rcases hfb : findBestAux (p.2 + kerf) bins 0 none with _ | ⟨i, nr⟩
  · rw [hfb] at hb
    simp only at hb
    rcases List.mem_append.mp hb with h1 | h1
    · exact h b h1
    · have hbnew := List.mem_singleton.mp h1
      subst hbnew
      by_cases hov : maxS < p.2
      · -- oversized: no stock is long enough, the fallback picks the largest
        have hnone : ∀ a ∈ avail, a < p.2 + kerf := by
          intro a haa
          have h1 : a ≤ maxS := le_maxList haa
          have h2 : maxS < p.2 := hov
          linarith
        have hps : pickStock avail (p.2 + kerf) = maxS := pickStock_of_none hnone
        constructor
        · simp only [hps]
          linarith
        · intro c hc _
          have hcp := List.mem_singleton.mp hc
          simp [hps]
      · -- not oversized: the chosen stock is a catalog entry, hence ≤ maxS
        have hmem : pickStock avail (p.2 + kerf) ∈ avail := pickStock_mem ha _
        have hle : pickStock avail (p.2 + kerf) ≤ maxS := le_maxList hmem
        constructor
        · simp only
          linarith
        · intro c hc hcc
          have hcp := List.mem_singleton.mp hc
          subst hcp
          exact absurd hcc hov
  · rw [hfb] at hb
    simp only at hb
    rcases hg : bins.get? i with _ | b0
    · rw [hg] at hb
      exact h b hb
    · rw [hg] at hb
      have hb0 : b0 ∈ bins := List.get?_mem hg
      obtain ⟨hrem0, hcuts0⟩ := h b0 hb0
      -- the selected bin actually fits the piece
      obtain ⟨hloc, _, _⟩ := findBestAux_some_spec hfb
      have hfit : p.2 + kerf ≤ b0.remaining := by
        rcases hloc with hl | hl
        · cases hl
        · obtain ⟨k, hk, hik, hfit, _⟩ := hl
          have hki : k = i := by omega
          subst hki
          have : bins.get ⟨k, hk⟩ = b0 := by
            have := List.get?_eq_get hk
            rw [hg] at this
            exact Option.some_inj.mp this.symm
          rwa [this] at hfit
      rcases mem_or_eq_of_mem_set' hb with hold | hnew
      · exact h b hold
      · subst hnew
        constructor
        · simp only
          linarith
        · intro c hc hcc
          simp only [List.mem_append] at hc
          rcases hc with hc | hc
          · exact hcuts0 c hc hcc
          · have hcp := List.mem_singleton.mp hc
            rw [hcp] at hcc
            -- the placed piece fits an open bin, so it cannot be oversized
            exfalso
            have hple : p.2 ≤ maxS := by linarith
            exact absurd hcc (not_lt_of_le hple)

theorem nestMult_bounded {kerf : ℚ} {avail : List ℚ} {ls : List ℚ}
    (hk : 0 ≤ kerf) (hl : ∀ l ∈ ls, 0 ≤ l) (ha : avail ≠ []) :
    binsBounded (maxList avail) (nestMult kerf avail ls) := by
  unfold nestMult
  have hps : ∀ p : ℕ × ℚ, p ∈ sortByDesc (fun p => p.2) (pyEnum ls) → 0 ≤ p.2 := by
    intro p hp
    have hmem : p ∈ pyEnum ls := (mem_sortByDesc _ _ _).mp hp
    exact hl p.2 (mem_pyEnumFrom_snd hmem)
  -- fold preserving the invariant over exactly the pieces of the sorted list
  have main : ∀ (ps : List (ℕ × ℚ)) (bins : List Bin), (∀ p ∈ ps, 0 ≤ p.2) →
      binsBounded (maxList avail) bins →
      binsBounded (maxList avail) (ps.foldl (placePiece kerf avail) bins) := by
    intro ps
    induction ps with
    | nil => intro bins _ h; exact h
    | cons q t ih =>
      intro bins hq h
      exact ih _ (fun p hp => hq p (List.mem_cons_of_mem _ hp))
        (placePiece_bounded hk (hq q (List.mem_cons_self _ _)) ha h)
  exact main _ [] hps (by intro b hb; cases hb)

/-! ### Counting oversized warnings -/
theorem mem_oversizedIdxFrom_ge {maxS : ℚ} :
    ∀ {ls : List ℚ} {n j : ℕ}, j ∈ oversizedIdxFrom maxS n ls → n ≤ j := by
  intro ls
  induction ls with
  | nil => intro n j h; cases h
  | cons a t ih =>
    intro n j h
    by_cases ha : maxS < a
    · rw [oversizedIdxFrom, if_pos ha] at h
      rcases List.mem_cons.mp h with rfl | ht
      · exact Nat.le_refl _
      · have := ih ht
        omega
    · rw [oversizedIdxFrom, if_neg ha] at h
      have := ih h
      omega

theorem count_oversizedIdxFrom {maxS : ℚ} :
    ∀ {ls : List ℚ} {i : ℕ} {li : ℚ}, ls.get? i = some li →
      ∀ n : ℕ, (oversizedIdxFrom maxS n ls).count (n + i) = if maxS < li then 1 else 0 := by
  intro ls
  induction ls with
  | nil => intro i li h; simp [List.get?] at h
  | cons a t ih =>
    intro i li h n
    cases i with
    | zero =>
      have hv : a = li := by simpa [List.get?] using h
      subst hv
      by_cases ha : maxS < a
      · rw [oversizedIdxFrom, if_pos ha, if_pos ha]
        have hzero : (oversizedIdxFrom maxS (n + 1) t).count n = 0 := by
          apply List.count_eq_zero.mpr
          intro hmem
          have := mem_oversizedIdxFrom_ge hmem
          omega
        simp [List.count_cons, hzero]
      · rw [oversizedIdxFrom, if_neg ha, if_neg ha]
        apply List.count_eq_zero.mpr
        intro hmem
        have := mem_oversizedIdxFrom_ge hmem
        omega
    | succ i =>
      simp only [List.get?] at h
      have hrec := ih h (n + 1)
      have harith : n + 1 + i = n + (i + 1) := by omega
      rw [harith] at hrec
      by_cases ha : maxS < a
      · rw [oversizedIdxFrom, if_pos ha]
        rw [List.count_cons]
        simp only [hrec]
        have hne : (n == n + (i + 1)) = false := by
          simp only [beq_eq_false_iff_ne, ne_eq]
          omega
        have hne2 : ((n + (i + 1) : ℕ) == n) = false := by
          simp only [beq_eq_false_iff_ne, ne_eq]
          omega
        simp [hne, hne2]
      · rw [oversizedIdxFrom, if_neg ha]
        exact hrec

/-! ### Claim C1 -/
/-- Claim C1, counterexample: on the committed nest run (`run_nest`), a bin
with a single 228-inch cut on 240-inch stock at kerf 1/8 has leftover
240 - 228 - 1/8 = 95/8, so `sum(cuts) + kerf*(n-1) + leftover` is
239 + 7/8, not the stock length 240: the first piece on a bin does consume
kerf.  The discrepancy is exactly one kerf (1/8 inch), far above
floating-point tolerance. -/
theorem c1_counterexample :
    ∃ b ∈ nestMult (1/8) [240] [228],
      sumCuts b + (1/8) * ((b.cuts.length : ℚ) - 1) + b.remaining ≠ b.stock_length := by
  refine ⟨⟨240, 95/8, [(0, 228)]⟩, ?_, ?_⟩
  · norm_num [nestMult, placePiece, pyEnum, pyEnumFrom, sortByDesc, insertByDesc,
      findBestAux, pickStock, maxList]
  · norm_num [sumCuts]

/-- Claim C1 (amended): for every bin produced by a committed nest run, the
sum of its cut lengths plus kerf times the number of cuts — one kerf per cut,
including the first — plus its leftover (the recorded drop length when
tracked) equals the bin's stock length exactly; equivalently, placing a piece
always consumes `length + kerf` from the bin's remaining capacity, with no
exception for the first piece on a bin. -/
theorem c1_conservation_kerf_per_cut (kerf : ℚ) (avail : List ℚ) (cut_lengths : List ℚ) :
    ∀ b ∈ nestMult kerf avail cut_lengths,
      sumCuts b + kerf * (b.cuts.length : ℚ) + b.remaining = b.stock_length :=
  fun b hb => nestMult_conserved kerf avail cut_lengths b hb

/-- Witness for `c1_conservation_kerf_per_cut` at a concrete run. -/
theorem c1_conservation_witness :
    sumCuts (⟨240, 95/8, [(0, 228)]⟩ : Bin) +
      (1/8) * ((Bin.cuts ⟨240, 95/8, [(0, 228)]⟩).length : ℚ) +
      Bin.remaining ⟨240, 95/8, [(0, 228)]⟩ = Bin.stock_length ⟨240, 95/8, [(0, 228)]⟩ :=
  c1_conservation_kerf_per_cut (1/8) [240] [228] _
    (by norm_num [nestMult, placePiece, pyEnum, pyEnumFrom, sortByDesc, insertByDesc,
      findBestAux, pickStock, maxList])

/-! ### Claim C2 -/
/-- Claim C2: in the committed run's linear nester, a piece that fits some
open bin (remaining ≥ length + kerf) goes to the bin yielding the smallest
resulting leftover (best fit, not first fit); if no open bin fits, a new bin
is opened at the smallest catalog stock length ≥ length + kerf, falling back
to the largest available length when none suffices; and nesting two 19-foot
(228") pieces against catalog stock lengths [20', 40'] = [240", 480"]
produces exactly two 240" bins, never one 480" bin. -/
theorem c2_best_fit_smallest_stock (kerf : ℚ) (avail : List ℚ) (bins : List Bin)
    (p : ℕ × ℚ) (hs : avail.Pairwise (· ≤ ·)) :
    ((∃ b ∈ bins, p.2 + kerf ≤ b.remaining) →
      ∃ (i : ℕ) (hi : i < bins.length),
        (p.2 + kerf ≤ (bins.get ⟨i, hi⟩).remaining) ∧
        (∀ b ∈ bins, p.2 + kerf ≤ b.remaining →
          (bins.get ⟨i, hi⟩).remaining - (p.2 + kerf) ≤ b.remaining - (p.2 + kerf)) ∧
        placePiece kerf avail bins p =
          bins.set i { bins.get ⟨i, hi⟩ with
            remaining := (bins.get ⟨i, hi⟩).remaining - p.2 - kerf,
            cuts := (bins.get ⟨i, hi⟩).cuts ++ [p] }) ∧
    ((∀ b ∈ bins, b.remaining < p.2 + kerf) →
      placePiece kerf avail bins p =
        bins ++ [{ stock_length := pickStock avail (p.2 + kerf),
                   remaining := pickStock avail (p.2 + kerf) - p.2 - kerf,
                   cuts := [p] }] ∧
      ((∃ a ∈ avail, p.2 + kerf ≤ a) →
        pickStock avail (p.2 + kerf) ∈ avail ∧ p.2 + kerf ≤ pickStock avail (p.2 + kerf) ∧
        ∀ a ∈ avail, p.2 + kerf ≤ a → pickStock avail (p.2 + kerf) ≤ a) ∧
      ((∀ a ∈ avail, a < p.2 + kerf) → pickStock avail (p.2 + kerf) = maxList avail)) ∧
    (nestMult (1/8) [240, 480] [228, 228]).map (fun b => b.stock_length) = [240, 240] := by
  refine ⟨?_, ?_, ?_⟩
  · intro hex
    rcases hfb : findBestAux (p.2 + kerf) bins 0 none with _ | ⟨j, br⟩
    · exfalso
      obtain ⟨_, hall⟩ := findBestAux_none_sound hfb
      obtain ⟨b, hb, hfit⟩ := hex
      exact absurd hfit (not_le_of_lt (hall b hb))
    · obtain ⟨hloc, hmin, _⟩ := findBestAux_some_spec hfb
      rcases hloc with hl | hl
      · cases hl
      · obtain ⟨k, hk, hjk, hfit, hbr⟩ := hl
        have hj : j = k := by omega
        subst hj
        refine ⟨j, hk, hfit, ?_, ?_⟩
        · intro b hb hfb2
          have := hmin b hb hfb2
          rw [hbr] at this
          exact this
        · unfold placePiece
          rw [hfb]
          simp only
          rw [List.get?_eq_get hk]
  · intro hnone
    have hfb : findBestAux (p.2 + kerf) bins 0 none = none :=
      findBestAux_eq_none hnone
    refine ⟨?_, ?_, ?_⟩
    · unfold placePiece
      rw [hfb]
    · intro hex
      exact pickStock_spec hs hex
    · intro hall
      exact pickStock_of_none hall
  · norm_num [nestMult, placePiece, pyEnum, pyEnumFrom, sortByDesc, insertByDesc,
      findBestAux, pickStock, maxList]

/-- Witness for `c2_best_fit_smallest_stock`: the concrete two-19-foot-pieces
run extracted by applying the theorem. -/
theorem c2_witness :
    (nestMult (1/8) [240, 480] [228, 228]).map (fun b => b.stock_length) = [240, 240] :=
  (c2_best_fit_smallest_stock (1/8) [240, 480] [] (0, 228) (by decide)).2.2

theorem addPart_groupOk {gs : List Group} (h : ∀ g ∈ gs, groupOk g) (p : PartRow) :
    ∀ g ∈ addPart gs p, groupOk g := by
  intro g hg
  unfold addPart at hg
  by_cases hany : gs.any (fun g => g.key == groupKeyOf p)
  · rw [if_pos hany] at hg
    obtain ⟨g0, hg0, hfg⟩ := List.mem_map.mp hg
    by_cases hk : g0.key == groupKeyOf p
    · rw [if_pos hk] at hfg
      subst hfg
      intro q hq
      simp only [List.mem_append, List.mem_singleton] at hq
      rcases hq with hq | rfl
      · exact h g0 hg0 q hq
      · exact (beq_iff_eq.mp hk).symm
    · rw [if_neg hk] at hfg
      subst hfg
      exact h g0 hg0
  · rw [if_neg hany] at hg
    rcases List.mem_append.mp hg with hold | hnew
    · exact h g hold
    · have := List.mem_singleton.mp hnew
      subst this
      intro q hq
      have := List.mem_singleton.mp hq
      subst this
      rfl

theorem buildGroups_groupOk (ps : List PartRow) : ∀ g ∈ buildGroups ps, groupOk g := by
  unfold buildGroups
  exact foldl_preserve addPart groupOk (fun l x h => addPart_groupOk h x) ps []
    (by intro a ha; cases ha)

theorem mem_expandGroup {g : Group} {q : PartRow} (h : q ∈ expandGroup g) :
    q ∈ g.items := by
  unfold expandGroup at h
  obtain ⟨p, hp, hq⟩ := List.mem_flatMap.mp h
  have := List.eq_of_mem_replicate hq
  subst this
  exact hp

/-- Cuts produced by the fold only come from the pieces fed to it. -/
theorem cutsOf_placePiece_sub {kerf : ℚ} {avail : List ℚ} {bins : List Bin}
    {p c : ℕ × ℚ} (hc : c ∈ cutsOf (placePiece kerf avail bins p)) :
    c ∈ cutsOf bins ∨ c = p := by
  unfold placePiece at hc
  rcases hfb : findBestAux (p.2 + kerf) bins 0 none with _ | ⟨i, nr⟩
  · rw [hfb] at hc
    simp only at hc
    obtain ⟨b, hb, hcb⟩ := mem_cutsOf_iff.mp hc
    rcases List.mem_append.mp hb with hold | hnew
    · exact Or.inl (mem_cutsOf_iff.mpr ⟨b, hold, hcb⟩)
    · have := List.mem_singleton.mp hnew
      subst this
      exact Or.inr (List.mem_singleton.mp hcb)
  · rw [hfb] at hc
    simp only at hc
    rcases hg : bins.get? i with _ | b0
    · rw [hg] at hc
      exact Or.inl hc
    · rw [hg] at hc
      obtain ⟨b, hb, hcb⟩ := mem_cutsOf_iff.mp hc
      have hb0 : b0 ∈ bins := List.get?_mem hg
      rcases mem_or_eq_of_mem_set' hb with hold | hnew
      · exact Or.inl (mem_cutsOf_iff.mpr ⟨b, hold, hcb⟩)
      · subst hnew
        simp only [List.mem_append, List.mem_singleton] at hcb
        rcases hcb with hcb | rfl
        · exact Or.inl (mem_cutsOf_iff.mpr ⟨b0, hb0, hcb⟩)
        · exact Or.inr rfl

theorem cutsOf_foldl_sub {kerf : ℚ} {avail : List ℚ} {c : ℕ × ℚ} :
    ∀ {ps : List (ℕ × ℚ)} {bins : List Bin},
      c ∈ cutsOf (ps.foldl (placePiece kerf avail) bins) →
      c ∈ cutsOf bins ∨ c ∈ ps := by
  intro ps
  induction ps with
  | nil => intro bins h; exact Or.inl h
  | cons q t ih =>
    intro bins h
    rcases ih h with h1 | h1
    · rcases cutsOf_placePiece_sub h1 with h2 | h2
      · exact Or.inl h2
      · exact Or.inr (h2 ▸ List.mem_cons_self _ _)
    · exact Or.inr (List.mem_cons_of_mem _ h1)

theorem pyEnumFrom_get? {α : Type} {c : ℕ × α} :
    ∀ {l : List α} {n : ℕ}, c ∈ pyEnumFrom n l → n ≤ c.1 ∧ l.get? (c.1 - n) = some c.2 := by
  intro l
  induction l with
  | nil => intro n h; cases h
  | cons a t ih =>
    intro n h
    rcases List.mem_cons.mp h with rfl | ht
    · simp [List.get?]
    · obtain ⟨h1, h2⟩ := ih ht
      refine ⟨by omega, ?_⟩
      have : c.1 - n = (c.1 - (n + 1)) + 1 := by omega
      rw [this]
      simpa [List.get?] using h2

/-- Every cut of `nestMult` refers to a valid index of the input list and
carries that entry's length. -/
theorem nestMult_cut_source {kerf : ℚ} {avail : List ℚ} {ls : List ℚ} {c : ℕ × ℚ}
    (hc : c ∈ cutsOf (nestMult kerf avail ls)) : ls.get? c.1 = some c.2 := by
  unfold nestMult at hc
  rcases cutsOf_foldl_sub hc with h | h
  · cases h
  · have hmem : c ∈ pyEnum ls := (mem_sortByDesc _ _ _).mp h
    have := pyEnumFrom_get? hmem
    simpa using this.2

/-! ### Support lemmas for the commit path -/
theorem collectParts_ok {pt : List PartRow} {db : DBState} :
    ∀ {sel : List ℕ}, (∀ pid ∈ sel, partLockedIn db pid = false) →
      ∃ l, collectParts pt db sel = Except.ok l ∧
        ∀ pid ∈ sel, ∀ p, lookupPart pt pid = some p → p ∈ l := by
  intro sel
  induction sel with
  | nil => exact fun _ => ⟨[], rfl, by intro pid h; cases h⟩
  | cons pid rest ih =>
    intro h
    obtain ⟨l, hl, hmem⟩ := ih (fun q hq => h q (List.mem_cons_of_mem _ hq))
    rcases hp : lookupPart pt pid with _ | p
    · refine ⟨l, ?_, ?_⟩
      · simp only [collectParts, hp]
        exact hl
      · intro q hq p2 hp2
        rcases List.mem_cons.mp hq with rfl | hq2
        · rw [hp] at hp2; cases hp2
        · exact hmem q hq2 p2 hp2
    · have hlock : partLockedIn db pid = false := h pid (List.mem_cons_self _ _)
      refine ⟨p :: l, ?_, ?_⟩
      · simp only [collectParts, hp, hlock, Bool.false_eq_true, if_false, hl]
      · intro q hq p2 hp2
        rcases List.mem_cons.mp hq with rfl | hq2
        · rw [hp] at hp2
          rw [Option.some_inj] at hp2
          exact hp2 ▸ List.mem_cons_self _ _
        · exact List.mem_cons_of_mem _ (hmem q hq2 p2 hp2)

/-- The run commits whenever the selection has no locked part and at least
one selected id resolves to an existing part — irrespective of the piece
lengths (oversized pieces included). -/
theorem runNestModel_ok {pt : List PartRow} {db : DBState} {sel : List ℕ}
    (avail : List ℚ) (kerf : ℚ)
    (hun : ∀ pid ∈ sel, partLockedIn db pid = false)
    (hex : ∃ pid ∈ sel, ∃ p, lookupPart pt pid = some p) :
    ∃ out, runNestModel pt avail kerf db sel = Except.ok out := by
  obtain ⟨l, hl, hmem⟩ := collectParts_ok hun
  obtain ⟨pid, hpid, p, hp⟩ := hex
  have hpl : p ∈ l := hmem pid hpid p hp
  have hne : l.isEmpty = false := by
    cases l with
    | nil => cases hpl
    | cons a t => rfl
  unfold runNestModel
  rw [hl]
  simp only [hne, Bool.false_eq_true, if_false]
  exact ⟨_, rfl⟩

/-! ### Claim C4 -/
/-- Claim C4: a piece strictly longer than the largest available stock
length still nests — the group's warning list contains exactly one entry for
that piece's index, carrying that piece's part mark, the piece is placed on
a bin whose stock length is the largest available length, and the run-nest
endpoint still commits (its success depends only on the lock/validity checks,
never on piece lengths). -/
theorem c4_oversized_placed_with_warning
    (kerf : ℚ) (avail : List ℚ) (refs : List PartRow) (i : ℕ) (pr : PartRow)
    (hk : 0 ≤ kerf) (ha : avail ≠ [])
    (hl : ∀ p ∈ refs, 0 ≤ p.length_inches)
    (hi : refs.get? i = some pr)
    (hov : maxList avail < pr.length_inches) :
    (oversizedWarnIdx avail (refs.map (fun p => p.length_inches))).count i = 1 ∧
    (i, pr.part_mark) ∈ oversizedWarns avail refs (refs.map (fun p => p.length_inches)) ∧
    (∃ b ∈ nestMult kerf avail (refs.map (fun p => p.length_inches)),
      (i, pr.length_inches) ∈ b.cuts ∧ b.stock_length = maxList avail) ∧
    (∀ (pt : List PartRow) (db : DBState) (sel : List ℕ),
      (∀ pid ∈ sel, partLockedIn db pid = false) →
      (∃ pid ∈ sel, ∃ p, lookupPart pt pid = some p) →
      ∃ out, runNestModel pt avail kerf db sel = Except.ok out) := by
  have hls : (refs.map (fun p => p.length_inches)).get? i = some pr.length_inches := by
    rw [List.get?_map, hi]
    rfl
  have hcnt : (oversizedWarnIdx avail (refs.map (fun p => p.length_inches))).count i = 1 := by
    have h2 : (oversizedIdxFrom (maxList avail) 0
        (refs.map (fun p => p.length_inches))).count (0 + i) =
        if maxList avail < pr.length_inches then 1 else 0 :=
      count_oversizedIdxFrom hls 0
    simp only [Nat.zero_add] at h2
    unfold oversizedWarnIdx
    rw [h2, if_pos hov]
  refine ⟨hcnt, ?_, ?_, ?_⟩
  · have hmem : i ∈ oversizedWarnIdx avail (refs.map (fun p => p.length_inches)) := by
      by_contra hno
      rw [List.count_eq_zero.mpr hno] at hcnt
      exact absurd hcnt (by norm_num)
    unfold oversizedWarns
    apply List.mem_map.mpr
    refine ⟨i, hmem, ?_⟩
    rw [hi]
    rfl
  · have hcut : (i, pr.length_inches) ∈
        cutsOf (nestMult kerf avail (refs.map (fun p => p.length_inches))) :=
      nestMult_mem_cut hls
    obtain ⟨b, hb, hcb⟩ := mem_cutsOf_iff.mp hcut
    have hbound := @nestMult_bounded kerf avail
      (refs.map (fun p => p.length_inches)) hk
      (by
        intro l hlm
        obtain ⟨p, hp, hpl⟩ := List.mem_map.mp hlm
        exact hpl ▸ hl p hp) ha
    obtain ⟨_, hcuts⟩ := hbound b hb
    exact ⟨b, hb, hcb, hcuts _ hcb hov⟩
  · intro pt db sel hun hex
    exact runNestModel_ok avail kerf hun hex

/-- Witness for `c4_oversized_placed_with_warning`: a 500-inch piece against
a single 240-inch stock length. -/
theorem c4_witness :
    (oversizedWarnIdx [240]
        (([(⟨1, "P1", "A1", "W", "W8X10", "A992", 500, 0, 1⟩ : PartRow)]).map
          (fun p => p.length_inches))).count 0 = 1 ∧
    (∃ b ∈ nestMult (1/8) [240]
        (([(⟨1, "P1", "A1", "W", "W8X10", "A992", 500, 0, 1⟩ : PartRow)]).map
          (fun p => p.length_inches)),
      (0, (⟨1, "P1", "A1", "W", "W8X10", "A992", 500, 0, 1⟩ : PartRow).length_inches) ∈
        b.cuts ∧ b.stock_length = maxList [240]) := by
  have h := c4_oversized_placed_with_warning (1/8) [240]
    [⟨1, "P1", "A1", "W", "W8X10", "A992", 500, 0, 1⟩] 0
    ⟨1, "P1", "A1", "W", "W8X10", "A992", 500, 0, 1⟩
    (by norm_num) (by simp) (by intro p hp; rcases List.mem_singleton.mp hp with rfl; norm_num)
    (by rfl) (by norm_num [maxList])
  exact ⟨h.1, h.2.2.1⟩

/-! ### Claim C5 -/
/-- Claim C5, counterexample: grouping keys are built with the string
`f"{shape}|{dimensions}|{grade}"`, so the distinct verbatim triples
("W", "A|B", "G") and ("W|A", "B", "G") collide on the key "W|A|B|G" and
their pieces are nested onto the same bin, refuting "linear pieces share a
bin only when their (shape, dimension string, grade) keys match verbatim". -/
theorem c5_counterexample :
    ∃ r ∈ multResults (1/8) [480]
      [⟨1, "P1", "", "W", "A|B", "G", 100, 0, 1⟩, ⟨2, "P2", "", "W|A", "B", "G", 100, 0, 1⟩],
      ∃ b ∈ r.bins, ∃ c1 ∈ b.cuts, ∃ c2 ∈ b.cuts,
        ∃ q1 q2 : PartRow, r.part_refs.get? c1.1 = some q1 ∧
          r.part_refs.get? c2.1 = some q2 ∧
          (q1.shape, q1.dimensions, q1.grade) ≠ (q2.shape, q2.dimensions, q2.grade) := by
  have hg : buildGroups
      [⟨1, "P1", "", "W", "A|B", "G", 100, 0, 1⟩, ⟨2, "P2", "", "W|A", "B", "G", 100, 0, 1⟩] =
      [⟨"W|A|B|G", "W", "A|B", "G", false,
        [⟨1, "P1", "", "W", "A|B", "G", 100, 0, 1⟩, ⟨2, "P2", "", "W|A", "B", "G", 100, 0, 1⟩]⟩] := by
    decide
  refine ⟨⟨⟨"W|A|B|G", "W", "A|B", "G", false,
      [⟨1, "P1", "", "W", "A|B", "G", 100, 0, 1⟩, ⟨2, "P2", "", "W|A", "B", "G", 100, 0, 1⟩]⟩,
      [⟨1, "P1", "", "W", "A|B", "G", 100, 0, 1⟩, ⟨2, "P2", "", "W|A", "B", "G", 100, 0, 1⟩],
      [⟨480, 1119/4, [(0, 100), (1, 100)]⟩]⟩, ?_, ?_⟩
  · unfold multResults
    rw [hg]
    norm_num [expandGroup, List.replicate, nestMult, placePiece, pyEnum, pyEnumFrom,
      sortByDesc, insertByDesc, findBestAux, pickStock, maxList, List.filterMap]
  · refine ⟨⟨480, 1119/4, [(0, 100), (1, 100)]⟩, List.mem_singleton.mpr rfl,
      (0, 100), by simp, (1, 100), by simp,
      ⟨1, "P1", "", "W", "A|B", "G", 100, 0, 1⟩, ⟨2, "P2", "", "W|A", "B", "G", 100, 0, 1⟩,
      by rfl, by rfl, by decide⟩

/-- Claim C5 (amended): no bin ever contains cuts from two different
material groups, where a linear group is keyed by the concatenated string
`shape|dimensions|grade` (componentwise verbatim equality whenever no field
contains the `|` delimiter) and a plate group by
`shape|thickness-parsed-from-the-dimension-string|grade`; every cut in a
group's bins references a part carrying that group's key; plate parts of
equal shape, parsed thickness and grade share a group regardless of piece
width, and such pieces are packed onto a shared sheet. -/
theorem c5_grouping_purity (kerf : ℚ) (avail : List ℚ) (ps : List PartRow) :
    (∀ r ∈ multResults kerf avail ps,
      (∀ q ∈ r.part_refs, groupKeyOf q = r.grp.key) ∧
      ∀ b ∈ r.bins, ∀ c ∈ b.cuts, ∃ q, r.part_refs.get? c.1 = some q ∧
        groupKeyOf q = r.grp.key) ∧
    (∀ p q : PartRow, isPlateShape p.shape = true → p.shape = q.shape →
      thicknessStr p.dimensions = thicknessStr q.dimensions → p.grade = q.grade →
      groupKeyOf p = groupKeyOf q) ∧
    packPlates 48 96 (1/8) (sortPlatePieces [(0, 12, 20), (1, 6, 20)]) =
      [⟨[⟨12, 223/4, [(0, 12, 20), (1, 6, 20)]⟩], 97/8⟩] := by
  refine ⟨?_, ?_, ?_⟩
  · intro r hr
    unfold multResults at hr
    obtain ⟨g, hgmem, hsome⟩ := List.mem_filterMap.mp hr
    by_cases he : (expandGroup g).isEmpty
    · simp only [he, if_true] at hsome
      cases hsome
    · simp only [he, Bool.false_eq_true, if_false, Option.some_inj] at hsome
      subst hsome
      have hok := buildGroups_groupOk ps g hgmem
      constructor
      · intro q hq
        exact hok q (mem_expandGroup hq)
      · intro b hb c hc
        have hcut : c ∈ cutsOf (nestMult kerf avail
            ((expandGroup g).map (fun p => p.length_inches))) :=
          mem_cutsOf_iff.mpr ⟨b, hb, hc⟩
        have hsrc := nestMult_cut_source hcut
        rw [List.get?_map] at hsrc
        rcases hq : (expandGroup g).get? c.1 with _ | q
        · rw [hq] at hsrc; cases hsrc
        · refine ⟨q, rfl, ?_⟩
          exact hok q (mem_expandGroup (List.get?_mem hq))
  · intro p q hpl hsh hth hgr
    unfold groupKeyOf
    rw [if_pos hpl, if_pos (by rw [← hsh]; exact hpl), hsh, hth, hgr]
  · norm_num [packPlates, sortPlatePieces, sortByDesc, insertByDesc, placePlatePiece,
      tryOrient, tryStrips, List.filter]

/-- Witness for `c5_grouping_purity`: two plate parts of equal thickness and
grade but different widths share a grouping key, and their pieces share one
sheet. -/
theorem c5_witness :
    groupKeyOf ⟨1, "PL1", "", "PL", "1/2X12", "A36", 20, 12, 1⟩ =
      groupKeyOf ⟨2, "PL2", "", "PL", "1/2X6", "A36", 20, 6, 1⟩ ∧
    packPlates 48 96 (1/8) (sortPlatePieces [(0, 12, 20), (1, 6, 20)]) =
      [⟨[⟨12, 223/4, [(0, 12, 20), (1, 6, 20)]⟩], 97/8⟩] :=
  ⟨(c5_grouping_purity (1/8) [480] []).2.1
      ⟨1, "PL1", "", "PL", "1/2X12", "A36", 20, 12, 1⟩
      ⟨2, "PL2", "", "PL", "1/2X6", "A36", 20, 6, 1⟩
      (by decide) rfl (by decide) rfl,
    (c5_grouping_purity (1/8) [480] []).2.2⟩

/-! ### Claim C8 -/
theorem tryOrient_kind {sw sl kerf : ℚ} {cur : PSheet} {idx : ℕ} {ow ol : ℚ}
    {cur2 : PSheet} {k : PlaceKind}
    (h : tryOrient sw sl kerf cur idx ow ol = some (cur2, k)) :
    k = PlaceKind.intoStrip ∨ k = PlaceKind.newStrip := by
  unfold tryOrient at h
  by_cases hb : sw < ow ∨ sl < ol
  · rw [if_pos hb] at h
    cases h
  · rw [if_neg hb] at h
    rcases ht : tryStrips kerf ow ol idx cur.strips with _ | ss
    · rw [ht] at h
      simp only at h
      by_cases hy : cur.y_used + ow + kerf ≤ sw
      · rw [if_pos hy] at h
        simp only [Option.some_inj, Prod.mk.injEq] at h
        exact Or.inr h.2.symm
      · rw [if_neg hy] at h
        cases h
    · rw [ht] at h
      simp only [Option.some_inj, Prod.mk.injEq] at h
      exact Or.inl h.2.symm

theorem tryOrient_none_of_oob {sw sl kerf : ℚ} {cur : PSheet} {idx : ℕ} {ow ol : ℚ}
    (h : sw < ow ∨ sl < ol) : tryOrient sw sl kerf cur idx ow ol = none := by
  unfold tryOrient
  rw [if_pos h]

/-- Claim C8: the plate placement step tries both axis orientations — against
existing strips, a new strip, then a fresh sheet — and forces a piece onto
its own oversized strip exactly when neither orientation fits within the
sheet bounds; in particular a 40"×10" piece on an empty 96"×48" sheet
(sw = 48, sl = 96) is placed normally (a new 40"-high strip), not forced. -/
theorem c8_orientations (sw sl kerf : ℚ) (sheets : List PSheet) (cur : PSheet)
    (pc : ℕ × ℚ × ℚ) :
    ((placePlatePiece sw sl kerf (sheets, cur) pc).2 = PlaceKind.forcedOversized ↔
      ((sw < pc.2.1 ∨ sl < pc.2.2) ∧ (sw < pc.2.2 ∨ sl < pc.2.1))) ∧
    placePlatePiece 48 96 (1/8) ([], ⟨[], 0⟩) (0, 40, 10) =
      (([], ⟨[⟨40, 687/8, [(0, 40, 10)]⟩], 321/8⟩), PlaceKind.newStrip) := by
  constructor
  · constructor
    · intro hforced
      unfold placePlatePiece at hforced
      simp only at hforced
      rcases h1 : tryOrient sw sl kerf cur pc.1 pc.2.1 pc.2.2 with _ | ⟨cur2, k⟩
      · rw [h1] at hforced
        simp only at hforced
        rcases h2 : tryOrient sw sl kerf cur pc.1 pc.2.2 pc.2.1 with _ | ⟨cur3, k2⟩
        · rw [h2] at hforced
          simp only at hforced
          by_cases hb1 : pc.2.1 ≤ sw ∧ pc.2.2 ≤ sl
          · rw [if_pos hb1] at hforced
            cases hforced
          · rw [if_neg hb1] at hforced
            by_cases hb2 : pc.2.2 ≤ sw ∧ pc.2.1 ≤ sl
            · rw [if_pos hb2] at hforced
              cases hforced
            · constructor
              · rcases not_and_or.mp hb1 with h | h
                · exact Or.inl (lt_of_not_le h)
                · exact Or.inr (lt_of_not_le h)
              · rcases not_and_or.mp hb2 with h | h
                · exact Or.inl (lt_of_not_le h)
                · exact Or.inr (lt_of_not_le h)
        · rw [h2] at hforced
          simp only at hforced
          rcases tryOrient_kind h2 with rfl | rfl <;> cases hforced
      · rw [h1] at hforced
        simp only at hforced
        rcases tryOrient_kind h1 with rfl | rfl <;> cases hforced
    · rintro ⟨hb1, hb2⟩
      unfold placePlatePiece
      simp only
      rw [tryOrient_none_of_oob hb1]
      simp only
      rw [tryOrient_none_of_oob hb2]
      simp only
      rw [if_neg, if_neg]
      · rcases hb2 with h | h
        · exact fun hc => absurd h (not_lt_of_le hc.1)
        · exact fun hc => absurd h (not_lt_of_le hc.2)
      · rcases hb1 with h | h
        · exact fun hc => absurd h (not_lt_of_le hc.1)
        · exact fun hc => absurd h (not_lt_of_le hc.2)
  · norm_num [placePlatePiece, tryOrient, tryStrips]

/-! ### Claim C7 -/
theorem seedInvBars_length (s d g : String) :
    ∀ inv : List InvItem, (seedInvBars s d g inv).length =
      ((inv.filter (invMatches s d g)).map (fun it => it.quantity)).sum := by
  intro inv
  induction inv with
  | nil => rfl
  | cons it t ih =>
    unfold seedInvBars at ih ⊢
    simp only [List.flatMap_cons, List.length_append, List.filter_cons]
    by_cases hm : invMatches s d g it = true
    · simp [hm, ih, List.length_replicate]
    · simp only [Bool.not_eq_true] at hm
      simp [hm, ih]

theorem seedInvBars_shape (s d g : String) :
    ∀ (inv : List InvItem), ∀ b ∈ seedInvBars s d g inv,
      b.from_inventory = true ∧ b.cuts = [] ∧ b.remaining = b.stock_length ∧
        ∃ it ∈ inv, invMatches s d g it = true ∧ b.stock_length = it.length_inches := by
  intro inv b hb
  unfold seedInvBars at hb
  obtain ⟨it, hit, hbit⟩ := List.mem_flatMap.mp hb
  by_cases hm : invMatches s d g it = true
  · rw [if_pos hm] at hbit
    have := List.eq_of_mem_replicate hbit
    subst this
    exact ⟨rfl, rfl, rfl, it, hit, hm, rfl⟩
  · rw [if_neg hm] at hbit
    cases hbit

/-- The stock length and inventory flag of a bar are never changed by the
packing loop; new bars are never inventory bars. -/
theorem map_proj_set :
    ∀ (bars : List LBar) (i : ℕ) (b b2 : LBar), bars.get? i = some b →
      b2.stock_length = b.stock_length → b2.from_inventory = b.from_inventory →
      (bars.set i b2).map (fun x => (x.stock_length, x.from_inventory)) =
        bars.map (fun x => (x.stock_length, x.from_inventory)) := by
  intro bars
  induction bars with
  | nil => intro i b b2 hg _ _; cases hg
  | cons x t ih =>
    intro i b b2 hg h1 h2
    cases i with
    | zero =>
      have hx : x = b := by
        have hgx : some x = some b := hg
        exact Option.some_inj.mp hgx
      subst hx
      simp [List.set, h1, h2]
    | succ i =>
      simp only [List.set, List.map_cons]
      rw [ih i b b2 hg h1 h2]

theorem placeLinear_proj (shape dims grade : String) (kerf : ℚ) (avail : List ℚ)
    (st : List LBar × List ℚ) (l : ℚ) :
    ((placeLinear shape dims grade kerf avail st l).1).map
        (fun b => (b.stock_length, b.from_inventory)) =
      (st.1).map (fun b => (b.stock_length, b.from_inventory)) ∨
    ∃ sl : ℚ, ((placeLinear shape dims grade kerf avail st l).1).map
        (fun b => (b.stock_length, b.from_inventory)) =
      (st.1).map (fun b => (b.stock_length, b.from_inventory)) ++ [(sl, false)] := by
  unfold placeLinear
  simp only
  rcases hfb : findBestLBar kerf l st.1 0 none with _ | ⟨i, nr⟩
  · simp only
    rcases hfind : (sortByAsc id avail).find? (fun sl => decide (l ≤ sl)) with _ | sl
    · exact Or.inl rfl
    · simp only
      exact Or.inr ⟨sl, by simp⟩
  · simp only
    rcases hg : st.1.get? i with _ | b
    · exact Or.inl rfl
    · simp only
      exact Or.inl (map_proj_set st.1 i b _ hg rfl rfl)

theorem nestLinearGroup_seed_lead (shape dims grade : String) (kerf : ℚ)
    (avail : List ℚ) (inventory : List InvItem) (lengths : List ℚ)
    (ha : avail ≠ []) :
    ∃ post, ((nestLinearGroup shape dims grade kerf avail inventory lengths).1).map
        (fun b => (b.stock_length, b.from_inventory)) =
      (seedInvBars shape dims grade inventory).map
        (fun b => (b.stock_length, b.from_inventory)) ++ post ∧
      ∀ x ∈ post, x.2 = false := by
  unfold nestLinearGroup
  have he : avail.isEmpty = false := by
    cases avail with
    | nil => exact absurd rfl ha
    | cons a t => rfl
  rw [he]
  simp only [Bool.false_eq_true, if_false]
  have main : ∀ (ls : List ℚ) (st : List LBar × List ℚ) (post0 : List (ℚ × Bool)),
      (st.1).map (fun b => (b.stock_length, b.from_inventory)) =
        (seedInvBars shape dims grade inventory).map
          (fun b => (b.stock_length, b.from_inventory)) ++ post0 →
      (∀ x ∈ post0, x.2 = false) →
      ∃ post, ((ls.foldl (placeLinear shape dims grade kerf avail) st).1).map
          (fun b => (b.stock_length, b.from_inventory)) =
        (seedInvBars shape dims grade inventory).map
          (fun b => (b.stock_length, b.from_inventory)) ++ post ∧
        ∀ x ∈ post, x.2 = false := by
    intro ls
    induction ls with
    | nil => intro st post0 h1 h2; exact ⟨post0, h1, h2⟩
    | cons l t ih =>
      intro st post0 h1 h2
      rcases placeLinear_proj shape dims grade kerf avail st l with hp | ⟨sl, hp⟩
      · exact ih _ post0 (hp.trans h1) h2
      · refine ih _ (post0 ++ [(sl, false)]) ?_ ?_
        · rw [hp, h1, List.append_assoc]
        · intro x hx
          rcases List.mem_append.mp hx with hx | hx
          · exact h2 x hx
          · rw [List.mem_singleton.mp hx]
  exact main _ _ [] (by simp) (by intro x hx; cases hx)

/-- Inventory bars contribute nothing to the purchase list: folding over all
bars equals folding over the non-inventory bars only. -/
theorem purchaseList_skips_inventory :
    ∀ (bars : List LBar) (acc : List PurchaseEntry),
      bars.foldl addPurchase acc =
        (bars.filter (fun b => !b.from_inventory)).foldl addPurchase acc := by
  intro bars
  induction bars with
  | nil => intro acc; rfl
  | cons b t ih =>
    intro acc
    by_cases hb : b.from_inventory = true
    · have hstep : addPurchase acc b = acc := by
        unfold addPurchase
        rw [if_pos hb]
      simp only [List.foldl_cons, List.filter_cons, hb, Bool.not_true, hstep]
      exact ih acc
    · simp only [Bool.not_eq_true] at hb
      simp only [List.foldl_cons, List.filter_cons, hb, Bool.not_false, List.foldl_cons]
      exact ih (addPurchase acc b)

/-- Claim C7, counterexample: the inventory match of `nest_linear` is
case-insensitive (`.upper()` on both sides), so an inventory item whose
shape string "w" does not match the group's "W" verbatim still seeds a bin,
refuting "one bin per unit of on-hand inventory whose shape, dimensions and
grade match that group exactly". -/
theorem c7_counterexample :
    (seedInvBars "W" "X8" "A992" [⟨"w", "X8", "A992", 1, 100⟩]).length = 1 ∧
    ([(⟨"w", "X8", "A992", 1, 100⟩ : InvItem)]).filter (invMatchesExact "W" "X8" "A992") =
      [] := by
  constructor
  · decide
  · decide

/-- Claim C7 (amended): before any catalog stock is opened for a material
group, the linear nester seeds the working bin list with one bin per unit of
on-hand inventory whose shape, dimensions and grade match the group
case-insensitively (verbatim up to letter case), each bin sized to the
inventory item's actual length with full remaining capacity and flagged
`from_inventory = true`; every inventory-sourced bin keeps that flag and its
stock length through the packing loop, all catalog bins opened later follow
the seeded bins and are not inventory bins, and inventory bins are excluded
from the purchase list. -/
theorem c7_inventory_seeding (shape dims grade : String) (kerf : ℚ)
    (avail : List ℚ) (inventory : List InvItem) (lengths : List ℚ)
    (ha : avail ≠ []) :
    ((seedInvBars shape dims grade inventory).length =
      ((inventory.filter (invMatches shape dims grade)).map (fun it => it.quantity)).sum) ∧
    (∀ b ∈ seedInvBars shape dims grade inventory,
      b.from_inventory = true ∧ b.cuts = [] ∧ b.remaining = b.stock_length ∧
        ∃ it ∈ inventory, invMatches shape dims grade it = true ∧
          b.stock_length = it.length_inches) ∧
    (∃ post, ((nestLinearGroup shape dims grade kerf avail inventory lengths).1).map
        (fun b => (b.stock_length, b.from_inventory)) =
      (seedInvBars shape dims grade inventory).map
        (fun b => (b.stock_length, b.from_inventory)) ++ post ∧
      ∀ x ∈ post, x.2 = false) ∧
    (∀ bars : List LBar, purchaseList bars =
      purchaseList (bars.filter (fun b => !b.from_inventory))) := by
  refine ⟨seedInvBars_length shape dims grade inventory,
    seedInvBars_shape shape dims grade inventory,
    nestLinearGroup_seed_lead shape dims grade kerf avail inventory lengths ha,
    ?_⟩
  intro bars
  exact purchaseList_skips_inventory bars []

/-- Witness for `c7_inventory_seeding`: two units of matching inventory at
100 inches seed two inventory bars ahead of any catalog stock. -/
theorem c7_witness :
    (seedInvBars "W" "X8" "A992" [⟨"W", "X8", "A992", 2, 100⟩]).length =
      ((([(⟨"W", "X8", "A992", 2, 100⟩ : InvItem)]).filter
        (invMatches "W" "X8" "A992")).map (fun it => it.quantity)).sum ∧
    ∃ post, ((nestLinearGroup "W" "X8" "A992" (1/4) [240, 480]
        [⟨"W", "X8", "A992", 2, 100⟩] [90]).1).map
        (fun b => (b.stock_length, b.from_inventory)) =
      (seedInvBars "W" "X8" "A992" [⟨"W", "X8", "A992", 2, 100⟩]).map
        (fun b => (b.stock_length, b.from_inventory)) ++ post ∧
      ∀ x ∈ post, x.2 = false := by
  have h := c7_inventory_seeding "W" "X8" "A992" (1/4) [240, 480]
    [⟨"W", "X8", "A992", 2, 100⟩] [90] (by simp)
  exact ⟨h.1, h.2.2.1⟩

/-! ### Claims C6 and C9 -/
theorem find?_update {p : NRDrop → Bool} :
    ∀ {l : List NRDrop} {d d2 : NRDrop}, l.find? p = some d → p d2 = true →
      (l.map (fun x => if p x then d2 else x)).find? p = some d2 := by
  intro l
  induction l with
  | nil => intro d d2 h _; cases h
  | cons x t ih =>
    intro d d2 h h2
    by_cases hx : p x = true
    · simp only [List.map_cons, if_pos hx]
      rw [List.find?_cons_of_pos _ h2]
    · simp only [List.map_cons, if_neg hx]
      rw [List.find?_cons_of_neg _ (by simpa using hx)] at h
      rw [List.find?_cons_of_neg _ (by simpa using hx)]
      exact ih h h2

/-- Claim C6: dispositioning a fresh drop with action "inventory" succeeds
and appends exactly one inventory row whose length, shape, dimensions and
grade equal the drop's exactly, after which every further disposition call
on that drop is rejected; with action "scrap" the drop records only the
action, timestamp and operator — the inventory table (and everything else)
is unchanged.  A drop that already has a (non-empty) disposition is always
rejected, so the inventory disposition succeeds exactly once. -/
theorem c6_disposition_drop (db : DBState) (did : ℕ) (d : NRDrop) (loc op : String)
    (hfind : db.drops.find? (fun x => x.id == did) = some d)
    (hfresh : d.disposition = "") :
    (∃ db2, dispositionDrop db did "inventory" loc op = Except.ok db2 ∧
      db2.inv = db.inv ++ [dropInvRow d loc op] ∧
      (dropInvRow d loc op).length_inches = d.drop_length ∧
      (dropInvRow d loc op).shape = d.shape ∧
      (dropInvRow d loc op).dimensions = d.dimensions ∧
      (dropInvRow d loc op).grade = d.grade ∧
      ∀ a2 l2 o2 : String, dispositionDrop db2 did a2 l2 o2 =
        Except.error DispErr.alreadyDispositioned) ∧
    (∃ db3, dispositionDrop db did "scrap" loc op = Except.ok db3 ∧
      db3.inv = db.inv ∧ db3.runs = db.runs ∧ db3.items = db.items ∧
      db3.drops = db.drops.map (fun x => if x.id == did then
        { d with disposition := "scrap", disposition_date_set := true,
                 disposition_by := op } else x)) ∧
    (∀ (db4 : DBState) (did4 : ℕ) (d4 : NRDrop) (a l o : String),
      db4.drops.find? (fun x => x.id == did4) = some d4 → d4.disposition ≠ "" →
      dispositionDrop db4 did4 a l o = Except.error DispErr.alreadyDispositioned) := by
  have hcond : (d.disposition == "") = true := by rw [hfresh]; rfl
  have hdid : (d.id == did) = true := by
    have hps := List.find?_some hfind
    simpa using hps
  constructor
  · refine ⟨{ db with
        drops := db.drops.map (fun x => if x.id == did then
          { d with disposition := "inventory", disposition_date_set := true,
                   disposition_by := op, inventory_location := loc } else x),
        inv := db.inv ++ [dropInvRow d loc op] }, ?_, rfl, rfl, rfl, rfl, rfl, ?_⟩
    · unfold dispositionDrop
      rw [hfind]
      simp only
      rw [if_pos hcond]
      rfl
    · intro a2 l2 o2
      have hupd : ((db.drops.map (fun x => if x.id == did then
          { d with disposition := "inventory", disposition_date_set := true,
                   disposition_by := op, inventory_location := loc } else x)).find?
            (fun x => x.id == did)) =
          some { d with disposition := "inventory", disposition_date_set := true,
                        disposition_by := op, inventory_location := loc } :=
        find?_update hfind hdid
      unfold dispositionDrop
      simp only
      rw [hupd]
      simp only
      rw [if_neg]
      simp
  refine ⟨?_, ?_⟩
  · refine ⟨{ db with
        drops := db.drops.map (fun x => if x.id == did then
          { d with disposition := "scrap", disposition_date_set := true,
                   disposition_by := op } else x) }, ?_, rfl, rfl, rfl, rfl⟩
    unfold dispositionDrop
    rw [hfind]
    simp only
    rw [if_pos hcond]
    rfl
  · intro db4 did4 d4 a l o hfind4 hnf4
    unfold dispositionDrop
    rw [hfind4]
    simp only
    rw [if_neg]
    simp only [beq_iff_eq]
    exact hnf4

/-- Witness for `c6_disposition_drop` on a concrete one-drop database. -/
theorem c6_witness :
    ∃ db2, dispositionDrop
        ⟨1, 8, [1], [], [⟨7, 1, 0, "W", "X8", "A992", 240, 100, "", "", false, ""⟩], []⟩
        7 "inventory" "rack 3" "op" = Except.ok db2 ∧
      db2.inv = [] ++ [dropInvRow ⟨7, 1, 0, "W", "X8", "A992", 240, 100, "", "", false, ""⟩
        "rack 3" "op"] ∧
      (dropInvRow ⟨7, 1, 0, "W", "X8", "A992", 240, 100, "", "", false, ""⟩
        "rack 3" "op").length_inches =
        (⟨7, 1, 0, "W", "X8", "A992", 240, 100, "", "", false, ""⟩ : NRDrop).drop_length ∧
      (dropInvRow ⟨7, 1, 0, "W", "X8", "A992", 240, 100, "", "", false, ""⟩
        "rack 3" "op").shape =
        (⟨7, 1, 0, "W", "X8", "A992", 240, 100, "", "", false, ""⟩ : NRDrop).shape ∧
      (dropInvRow ⟨7, 1, 0, "W", "X8", "A992", 240, 100, "", "", false, ""⟩
        "rack 3" "op").dimensions =
        (⟨7, 1, 0, "W", "X8", "A992", 240, 100, "", "", false, ""⟩ : NRDrop).dimensions ∧
      (dropInvRow ⟨7, 1, 0, "W", "X8", "A992", 240, 100, "", "", false, ""⟩
        "rack 3" "op").grade =
        (⟨7, 1, 0, "W", "X8", "A992", 240, 100, "", "", false, ""⟩ : NRDrop).grade ∧
      ∀ a2 l2 o2 : String, dispositionDrop db2 7 a2 l2 o2 =
        Except.error DispErr.alreadyDispositioned :=
  (c6_disposition_drop
    ⟨1, 8, [1], [], [⟨7, 1, 0, "W", "X8", "A992", 240, 100, "", "", false, ""⟩], []⟩
    7 ⟨7, 1, 0, "W", "X8", "A992", 240, 100, "", "", false, ""⟩ "rack 3" "op"
    (by rfl) rfl).1

/-- Claim C9, counterexample: the endpoint does not validate the action
string and relies on Python truthiness; dispositioning a fresh drop with the
empty action string succeeds but leaves the drop's disposition falsy, so a
second disposition call also succeeds — "every subsequent disposition call
on that drop is then rejected" is false for the arbitrary action "". -/
theorem c9_counterexample :
    ((dispositionDrop
        ⟨1, 8, [1], [], [⟨7, 1, 0, "W", "X8", "A992", 240, 100, "", "", false, ""⟩], []⟩
        7 "" "loc" "op").bind
      (fun db1 => dispositionDrop db1 7 "scrapp" "loc2" "op2")).isOk = true := by
  decide

/-- Claim C9 (amended): for any non-empty action string other than
"inventory" (typos and arbitrary values included), the drop is marked
dispositioned with that string (with timestamp and operator) and no
inventory record is created, and every subsequent disposition call on that
drop is rejected — the invalid action irreversibly consumes the drop's
single disposition.  (An empty action string, in contrast, is recorded as a
falsy disposition and does not consume it.) -/
theorem c9_invalid_action (db : DBState) (did : ℕ) (d : NRDrop)
    (action loc op : String)
    (hfind : db.drops.find? (fun x => x.id == did) = some d)
    (hfresh : d.disposition = "")
    (hnotinv : action ≠ "inventory") (hnonempty : action ≠ "") :
    ∃ db2, dispositionDrop db did action loc op = Except.ok db2 ∧
      db2.inv = db.inv ∧
      db2.drops = db.drops.map (fun x => if x.id == did then
        { d with disposition := action, disposition_date_set := true,
                 disposition_by := op } else x) ∧
      ∀ a2 l2 o2 : String, dispositionDrop db2 did a2 l2 o2 =
        Except.error DispErr.alreadyDispositioned := by
  have hcond : (d.disposition == "") = true := by rw [hfresh]; rfl
  have hdid : (d.id == did) = true := by
    have hps := List.find?_some hfind
    simpa using hps
  have hact : (action == "inventory") = false := by
    simp only [beq_eq_false_iff_ne, ne_eq]
    exact hnotinv
  refine ⟨{ db with
      drops := db.drops.map (fun x => if x.id == did then
        { d with disposition := action, disposition_date_set := true,
                 disposition_by := op } else x) }, ?_, rfl, rfl, ?_⟩
  · unfold dispositionDrop
    rw [hfind]
    simp only
    rw [if_pos hcond]
    simp only [hact, Bool.false_eq_true, if_false]
  · intro a2 l2 o2
    have hupd : ((db.drops.map (fun x => if x.id == did then
        { d with disposition := action, disposition_date_set := true,
                 disposition_by := op } else x)).find? (fun x => x.id == did)) =
        some { d with disposition := action, disposition_date_set := true,
                      disposition_by := op } :=
      find?_update hfind hdid
    unfold dispositionDrop
    simp only
    rw [hupd]
    simp only
    rw [if_neg]
    simp only [beq_iff_eq]
    exact hnonempty

/-- Witness for `c9_invalid_action` with the typo action "scrapp". -/
theorem c9_witness :
    ∃ db2, dispositionDrop
        ⟨1, 8, [1], [], [⟨7, 1, 0, "W", "X8", "A992", 240, 100, "", "", false, ""⟩], []⟩
        7 "scrapp" "loc" "op" = Except.ok db2 ∧
      db2.inv = [] ∧
      db2.drops = ([⟨7, 1, 0, "W", "X8", "A992", 240, 100, "", "", false, ""⟩] :
          List NRDrop).map (fun x => if x.id == 7 then
        { (⟨7, 1, 0, "W", "X8", "A992", 240, 100, "", "", false, ""⟩ : NRDrop) with
          disposition := "scrapp", disposition_date_set := true,
          disposition_by := "op" } else x) ∧
      ∀ a2 l2 o2 : String, dispositionDrop db2 7 a2 l2 o2 =
        Except.error DispErr.alreadyDispositioned :=
  c9_invalid_action
    ⟨1, 8, [1], [], [⟨7, 1, 0, "W", "X8", "A992", 240, 100, "", "", false, ""⟩], []⟩
    7 ⟨7, 1, 0, "W", "X8", "A992", 240, 100, "", "", false, ""⟩ "scrapp" "loc" "op"
    (by rfl) rfl (by decide) (by decide)

/-! ### Claim C10 -/
theorem foldl_invFilter_subset {acc : List InvRow} {r : InvRow} :
    ∀ {ds : List NRDrop},
      r ∈ ds.foldl (fun acc d =>
        if d.disposition == "inventory" then acc.filter (fun x => !(invMatchesDrop d x))
        else acc) acc → r ∈ acc := by
  intro ds
  induction ds generalizing acc with
  | nil => intro h; exact h
  | cons d0 t ih =>
    intro h
    have h2 := ih h
    simp only at h2
    by_cases hd : (d0.disposition == "inventory") = true
    · rw [if_pos hd] at h2
      exact List.mem_of_mem_filter h2
    · rw [if_neg hd] at h2
      exact h2

theorem foldl_invFilter_clean {d : NRDrop} (hdisp : d.disposition = "inventory") :
    ∀ {ds : List NRDrop} {acc : List InvRow}, d ∈ ds →
      ∀ r ∈ ds.foldl (fun acc d =>
        if d.disposition == "inventory" then acc.filter (fun x => !(invMatchesDrop d x))
        else acc) acc, invMatchesDrop d r = false := by
  intro ds
  induction ds with
  | nil => intro acc h; cases h
  | cons d0 t ih =>
    intro acc hmem r hr
    rcases List.mem_cons.mp hmem with rfl | ht
    · -- the filter step for `d` itself removed every matching row
      simp only [List.foldl_cons] at hr
      have hcond : (d.disposition == "inventory") = true := by rw [hdisp]; rfl
      rw [if_pos hcond] at hr
      have hin := foldl_invFilter_subset hr
      have := List.of_mem_filter hin
      simpa using this
    · simp only [List.foldl_cons] at hr
      exact ih ht r hr

/-- Claim C10: deleting a nest run removes drop-sourced inventory by
attribute matching, not provenance — after the deletion no inventory row
with source type "drop" and the same shape, dimensions and length as one of
the run's inventory-dispositioned drops survives, whichever run's drop
originally created it. -/
theorem c10_delete_inventory_by_attributes (db : DBState) (rid : ℕ) (d : NRDrop)
    (hrun : db.runs.contains rid = true) (hd : d ∈ db.drops) (hdr : d.run_id = rid)
    (hdisp : d.disposition = "inventory") :
    ∃ db2, deleteNestRun db rid = some db2 ∧
      ∀ r ∈ db2.inv, ¬(r.source_type = "drop" ∧ r.shape = d.shape ∧
        r.dimensions = d.dimensions ∧ r.length_inches = d.drop_length) := by
  unfold deleteNestRun
  rw [if_pos hrun]
  simp only
  refine ⟨_, rfl, ?_⟩
  intro r hr
  simp only at hr
  have hdl : d ∈ db.drops.filter (fun x => x.run_id == rid) := by
    apply List.mem_filter.mpr
    refine ⟨hd, ?_⟩
    simp [hdr]
  have hclean := foldl_invFilter_clean hdisp hdl r hr
  intro ⟨h1, h2, h3, h4⟩
  unfold invMatchesDrop at hclean
  simp only [h1, h2, h3, h4, beq_self_eq_true, Bool.and_self] at hclean
  exact absurd hclean (by decide)

/-- Witness for `c10_delete_inventory_by_attributes`: an inventory row that
matches a deleted run's drop by attributes is removed even though it was
created elsewhere — the state below holds two identical drop-sourced rows,
both of which disappear. -/
theorem c10_witness :
    ∃ db2, deleteNestRun
        ⟨2, 8, [1], [],
          [⟨7, 1, 0, "W", "X8", "A992", 240, 100, "inventory", "op", true, "rack"⟩],
          [⟨"drop", "W", "X8", "A992", 100, "rack", "available", "op"⟩,
           ⟨"drop", "W", "X8", "A992", 100, "elsewhere", "available", "other"⟩]⟩ 1 =
        some db2 ∧
      ∀ r ∈ db2.inv, ¬(r.source_type = "drop" ∧ r.shape = "W" ∧
        r.dimensions = "X8" ∧ r.length_inches = 100) := by
  have h := c10_delete_inventory_by_attributes
    ⟨2, 8, [1], [],
      [⟨7, 1, 0, "W", "X8", "A992", 240, 100, "inventory", "op", true, "rack"⟩],
      [⟨"drop", "W", "X8", "A992", 100, "rack", "available", "op"⟩,
       ⟨"drop", "W", "X8", "A992", 100, "elsewhere", "available", "other"⟩]⟩ 1
    ⟨7, 1, 0, "W", "X8", "A992", 240, 100, "inventory", "op", true, "rack"⟩
    (by rfl) (by simp) rfl rfl
  exact h

/-! ### Claim C3 -/
/-- Structure of a successful commit: the new run id is the counter value,
and the run header, items and drops are appended, the new rows all
referencing the new run id. -/
theorem runNestModel_ok_struct {pt : List PartRow} {avail : List ℚ} {kerf : ℚ}
    {db db2 : DBState} {sel : List ℕ} {rid : ℕ}
    (h : runNestModel pt avail kerf db sel = Except.ok (db2, rid)) :
    rid = db.next_run_id ∧
    db2.runs = db.runs ++ [rid] ∧
    (∃ N, db2.items = db.items ++ N ∧ ∀ it ∈ N, it.run_id = rid) ∧
    (∃ D, db2.drops = db.drops ++ D ∧ ∀ dr ∈ D, dr.run_id = rid) := by
  unfold runNestModel at h
  rcases hc : collectParts pt db sel with e | parts
  · rw [hc] at h; cases h
  · rw [hc] at h
    simp only at h
    by_cases he : parts.isEmpty = true
    · rw [if_pos he] at h; cases h
    · rw [if_neg he] at h
      simp only [Except.ok.injEq, Prod.mk.injEq] at h
      obtain ⟨hdb, hrid⟩ := h
      subst hrid
      subst hdb
      refine ⟨rfl, rfl, ⟨_, rfl, ?_⟩, ⟨_, rfl, ?_⟩⟩
      · intro it hit
        obtain ⟨r, hr, hit2⟩ := List.mem_flatMap.mp hit
        unfold resultItems at hit2
        obtain ⟨bi, hbi, hit3⟩ := List.mem_flatMap.mp hit2
        unfold binItems at hit3
        obtain ⟨ci, hci, hit4⟩ := List.mem_map.mp hit3
        rw [← hit4]
      · intro dr hdr
        unfold runDropsOf at hdr
        obtain ⟨e2, he2, hdr2⟩ := List.mem_map.mp hdr
        rw [← hdr2]

/-- A locked part anywhere in the selection aborts the validation loop with
the part-locked error. -/
theorem collectParts_locked {pt : List PartRow} {db : DBState} {P : ℕ} {p : PartRow}
    (hp : lookupPart pt P = some p) (hlocked : partLockedIn db P = true) :
    ∀ {sel : List ℕ}, P ∈ sel →
      collectParts pt db sel = Except.error NestErr.partLocked := by
  intro sel
  induction sel with
  | nil => intro h; cases h
  | cons pid rest ih =>
    intro hmem
    rcases List.mem_cons.mp hmem with rfl | ht
    · unfold collectParts
      rw [hp]
      simp only
      rw [if_pos hlocked]
    · unfold collectParts
      rcases hl : lookupPart pt pid with _ | q
      · exact ih ht
      · simp only
        by_cases hlq : partLockedIn db pid = true
        · rw [if_pos hlq]
        · rw [if_neg hlq, ih ht]

theorem runNestModel_locked {pt : List PartRow} {avail : List ℚ} {kerf : ℚ}
    {db : DBState} {P : ℕ} {p : PartRow} {sel : List ℕ}
    (hp : lookupPart pt P = some p) (hlocked : partLockedIn db P = true)
    (hmem : P ∈ sel) :
    runNestModel pt avail kerf db sel = Except.error NestErr.partLocked := by
  unfold runNestModel
  rw [collectParts_locked hp hlocked hmem]

theorem contains_iff_mem_nat (l : List ℕ) (x : ℕ) : l.contains x = true ↔ x ∈ l := by
  constructor
  · intro h
    exact List.mem_of_elem_eq_true h
  · intro h
    exact List.elem_eq_true_of_mem h

theorem contains_eq_false_of_all {l : List ℕ} {r rid : ℕ}
    (hall : ∀ x ∈ l, x = rid) (hr : r ≠ rid) : l.contains r = false := by
  cases hcc : l.contains r with
  | false => rfl
  | true => exact absurd (hall r ((contains_iff_mem_nat _ _).mp hcc)) hr

/-- Claim C3: once a run containing part P commits, every nest request whose
selection includes P fails with the part-locked error and persists nothing;
after deleting that run, a request for P succeeds; unnesting P deletes only
P's item rows, deletes the run together with its drops exactly when the
run's item count reaches zero (and touches neither otherwise), and a request
for P then succeeds. -/
theorem c3_locking (pt : List PartRow) (avail : List ℚ) (kerf : ℚ)
    (db0 db1 : DBState) (sel1 : List ℕ) (P : ℕ) (p : PartRow) (rid : ℕ)
    (h1 : runNestModel pt avail kerf db0 sel1 = Except.ok (db1, rid))
    (h0 : ∀ it ∈ db0.items, it.part_id ≠ P)
    (hP : ∃ it ∈ db1.items, it.part_id = P)
    (hp : lookupPart pt P = some p) :
    (∀ sel2 : List ℕ, P ∈ sel2 →
      runNestModel pt avail kerf db1 sel2 = Except.error NestErr.partLocked) ∧
    (∃ db2, deleteNestRun db1 rid = some db2 ∧
      db2.items = db1.items.filter (fun it => !(it.run_id == rid)) ∧
      ∃ out, runNestModel pt avail kerf db2 [P] = Except.ok out) ∧
    ((unnestParts db1 [P]).items = db1.items.filter (fun it => !(it.part_id == P)) ∧
      ((unnestParts db1 [P]).items.countP (fun it => it.run_id == rid) = 0 →
        (unnestParts db1 [P]).runs = db1.runs.filter (fun r => !(r == rid)) ∧
        (unnestParts db1 [P]).drops = db1.drops.filter (fun dr => !(dr.run_id == rid))) ∧
      ((unnestParts db1 [P]).items.countP (fun it => it.run_id == rid) ≠ 0 →
        (unnestParts db1 [P]).runs = db1.runs ∧
        (unnestParts db1 [P]).drops = db1.drops) ∧
      ∃ out, runNestModel pt avail kerf (unnestParts db1 [P]) [P] = Except.ok out) := by
  obtain ⟨hrid, hruns, ⟨N, hitems, hN⟩, ⟨D, hdrops, hD⟩⟩ := runNestModel_ok_struct h1
  -- every item of db1 referencing P belongs to the new run
  have hPrun : ∀ it ∈ db1.items, it.part_id = P → it.run_id = rid := by
    intro it hit hpid
    rw [hitems] at hit
    rcases List.mem_append.mp hit with hold | hnew
    · exact absurd hpid (h0 it hold)
    · exact hN it hnew
  have hlocked1 : partLockedIn db1 P = true := by
    obtain ⟨it, hit, hpid⟩ := hP
    unfold partLockedIn
    apply List.any_eq_true.mpr
    exact ⟨it, hit, by simp [hpid]⟩
  refine ⟨?_, ?_, ?_, ?_, ?_, ?_⟩
  · intro sel2 hmem2
    exact runNestModel_locked hp hlocked1 hmem2
  · -- delete the run and renest P
    have hcont : db1.runs.contains rid = true := by
      apply (contains_iff_mem_nat _ _).mpr
      rw [hruns]
      exact List.mem_append.mpr (Or.inr (List.mem_singleton.mpr rfl))
    unfold deleteNestRun
    rw [if_pos hcont]
    simp only
    refine ⟨_, rfl, rfl, ?_⟩
    have hun2 : partLockedIn
        { db1 with
          runs := db1.runs.filter (fun r => !(r == rid)),
          items := db1.items.filter (fun it => !(it.run_id == rid)),
          drops := db1.drops.filter (fun d => !(d.run_id == rid)),
          inv := (db1.drops.filter (fun d => d.run_id == rid)).foldl (fun acc d =>
            if d.disposition == "inventory" then acc.filter (fun r => !(invMatchesDrop d r))
            else acc) db1.inv } P = false := by
      unfold partLockedIn
      apply List.any_eq_false.mpr
      intro it hit
      simp only [List.mem_filter] at hit
      obtain ⟨hit1, hit2⟩ := hit
      by_cases hpid : it.part_id = P
      · have := hPrun it hit1 hpid
        rw [this] at hit2
        simp at hit2
      · simp [hpid]
    apply runNestModel_ok avail kerf
    · intro pid hpid
      rw [List.mem_singleton.mp hpid]
      exact hun2
    · exact ⟨P, List.mem_singleton.mpr rfl, p, hp⟩
  · -- unnest deletes exactly P's item rows
    unfold unnestParts
    simp only
    apply List.filter_congr
    intro it _
    by_cases hpe : it.part_id = P <;> simp [List.contains_cons, hpe]
  · -- the run (and its drops) disappear exactly when its item count hits zero
    intro hzero
    unfold unnestParts at hzero ⊢
    simp only at hzero ⊢
    have hall : ∀ x ∈ (db1.items.filter
        (fun it => [P].contains it.part_id)).map (fun it => it.run_id), x = rid := by
      intro x hx
      obtain ⟨it, hit, hxeq⟩ := List.mem_map.mp hx
      obtain ⟨hit1, hit2⟩ := List.mem_filter.mp hit
      have hpid : it.part_id = P := by
        simpa [List.contains_cons] using hit2
      rw [← hxeq]
      exact hPrun it hit1 hpid
    have halldead : ∀ x ∈ ((db1.items.filter (fun it => [P].contains it.part_id)).map
        (fun it => it.run_id)).filter (fun r2 => (db1.items.filter
          (fun it => !([P].contains it.part_id))).countP
            (fun it => it.run_id == r2) == 0), x = rid :=
      fun x hx => hall x (List.mem_of_mem_filter hx)
    have hdeadmem : rid ∈ ((db1.items.filter (fun it => [P].contains it.part_id)).map
        (fun it => it.run_id)).filter (fun r2 => (db1.items.filter
          (fun it => !([P].contains it.part_id))).countP
            (fun it => it.run_id == r2) == 0) := by
      apply List.mem_filter.mpr
      constructor
      · obtain ⟨it, hit, hpid⟩ := hP
        apply List.mem_map.mpr
        refine ⟨it, ?_, (hPrun it hit hpid)⟩
        apply List.mem_filter.mpr
        exact ⟨hit, by simp [hpid, List.contains_cons]⟩
      · simpa using hzero
    constructor
    · apply List.filter_congr
      intro r _
      congr 1
      by_cases hr : r = rid
      · subst hr
        simp only [beq_self_eq_true]
        exact (contains_iff_mem_nat _ _).mpr hdeadmem
      · rw [contains_eq_false_of_all halldead hr]
        simp [hr]
    · apply List.filter_congr
      intro dr _
      congr 1
      by_cases hr : dr.run_id = rid
      · rw [hr]
        simp only [beq_self_eq_true]
        exact (contains_iff_mem_nat _ _).mpr hdeadmem
      · rw [contains_eq_false_of_all halldead hr]
        simp [hr]
  · intro hnz
    unfold unnestParts at hnz ⊢
    simp only at hnz ⊢
    have hall : ∀ x ∈ (db1.items.filter
        (fun it => [P].contains it.part_id)).map (fun it => it.run_id), x = rid := by
      intro x hx
      obtain ⟨it, hit, hxeq⟩ := List.mem_map.mp hx
      obtain ⟨hit1, hit2⟩ := List.mem_filter.mp hit
      have hpid : it.part_id = P := by
        simpa [List.contains_cons] using hit2
      rw [← hxeq]
      exact hPrun it hit1 hpid
    have hdead : ((db1.items.filter (fun it => [P].contains it.part_id)).map
        (fun it => it.run_id)).filter (fun r2 => (db1.items.filter
          (fun it => !([P].contains it.part_id))).countP
            (fun it => it.run_id == r2) == 0) = [] := by
      apply List.filter_eq_nil_iff.mpr
      intro a ha
      have haeq := hall a ha
      subst haeq
      simp only [beq_iff_eq]
      intro hc
      exact hnz hc
    rw [hdead]
    constructor
    · simp
    · simp
  · -- renesting P after the unnest succeeds
    have hun3 : partLockedIn (unnestParts db1 [P]) P = false := by
      unfold unnestParts partLockedIn
      simp only
      apply List.any_eq_false.mpr
      intro it hit
      obtain ⟨_, hit2⟩ := List.mem_filter.mp hit
      simp only [List.contains_cons, List.contains_nil, Bool.or_false,
        Bool.not_eq_true'] at hit2
      simpa using hit2
    apply runNestModel_ok avail kerf
    · intro pid hpid
      rw [List.mem_singleton.mp hpid]
      exact hun3
    · exact ⟨P, List.mem_singleton.mpr rfl, p, hp⟩

/-- Witness for `c3_locking` on a concrete one-part project: the committed
run locks part 1, a second request for it is rejected, and deleting the run
frees it. -/
theorem c3_witness :
    runNestModel [⟨1, "P1", "A1", "W", "W8X10", "A992", 100, 0, 1⟩] [240] (1/8)
      ⟨2, 2, [1], [⟨1, 1, 0, 0, 100, "W", "W8X10", "A992", "P1"⟩],
        [⟨1, 1, 0, "W", "W8X10", "A992", 240, 1119/8, "", "", false, ""⟩], []⟩ [1] =
      Except.error NestErr.partLocked ∧
    ∃ db2, deleteNestRun
        ⟨2, 2, [1], [⟨1, 1, 0, 0, 100, "W", "W8X10", "A992", "P1"⟩],
          [⟨1, 1, 0, "W", "W8X10", "A992", 240, 1119/8, "", "", false, ""⟩], []⟩ 1 =
        some db2 ∧
      db2.items = ([⟨1, 1, 0, 0, 100, "W", "W8X10", "A992", "P1"⟩] :
        List NRItem).filter (fun it => !(it.run_id == 1)) ∧
      ∃ out, runNestModel [⟨1, "P1", "A1", "W", "W8X10", "A992", 100, 0, 1⟩] [240] (1/8)
        db2 [1] = Except.ok out := by
  have hbuild : buildGroups [(⟨1, "P1", "A1", "W", "W8X10", "A992", 100, 0, 1⟩ : PartRow)] =
      [⟨"W|W8X10|A992", "W", "W8X10", "A992", false,
        [⟨1, "P1", "A1", "W", "W8X10", "A992", 100, 0, 1⟩]⟩] := by decide
  have h1 : runNestModel [⟨1, "P1", "A1", "W", "W8X10", "A992", 100, 0, 1⟩] [240] (1/8)
      ⟨1, 1, [], [], [], []⟩ [1] =
      Except.ok (⟨2, 2, [1], [⟨1, 1, 0, 0, 100, "W", "W8X10", "A992", "P1"⟩],
        [⟨1, 1, 0, "W", "W8X10", "A992", 240, 1119/8, "", "", false, ""⟩], []⟩, 1) := by
    norm_num [runNestModel, collectParts, lookupPart, partLockedIn, List.find?,
      multResults, hbuild, expandGroup, List.replicate, nestMult, pyEnum, pyEnumFrom,
      sortByDesc, insertByDesc, placePiece, findBestAux, pickStock, maxList,
      resultItems, binItems, runDropsOf, resultDropSpecs, List.filterMap, List.flatMap]
    intro hfalse
    exact absurd hfalse (by decide)
  have h := c3_locking [⟨1, "P1", "A1", "W", "W8X10", "A992", 100, 0, 1⟩] [240] (1/8)
    ⟨1, 1, [], [], [], []⟩
    ⟨2, 2, [1], [⟨1, 1, 0, 0, 100, "W", "W8X10", "A992", "P1"⟩],
      [⟨1, 1, 0, "W", "W8X10", "A992", 240, 1119/8, "", "", false, ""⟩], []⟩
    [1] 1 ⟨1, "P1", "A1", "W", "W8X10", "A992", 100, 0, 1⟩ 1 h1
    (by intro it hit; cases hit)
    ⟨⟨1, 1, 0, 0, 100, "W", "W8X10", "A992", "P1"⟩, by simp, rfl⟩
    (by rfl)
  exact ⟨h.1 [1] (List.mem_singleton.mpr rfl), h.2.1⟩

end SSES
